import Mathlib

/-!
Shallow embedding of the derived-state layer of the timemap repository
(`src/selectors/index.js`) together with proofs about its selectors.

Modelling conventions, chosen once and used throughout:

* Timestamps are modelled as integers (`Int`): the JS code treats
  `event.timestamp` as a sortable instant (it compares timestamps via
  `new Date(a) - new Date(b)` and via the `dateMin`/`dateMax`/
  `compareTimestamp` utilities), so an integer instant is the faithful
  abstraction.  The display `date`/`time` strings are carried along
  unchanged.

* JS objects used as dictionaries are modelled as association lists
  (`List (κ × α)`) in key-insertion order.  The dictionary keys appearing
  in this file (`location` labels, narrative ids, project tags, timestamp
  date-strings) are non-index string keys, for which JS enumerates own
  properties in insertion order; hence `Object.keys`/`Object.values`
  correspond to mapping over the association list.

* A JS record possibly missing a field (`undefined`) is modelled with
  `Option`; reading `.length` of such a missing field throws in JS, which
  is modelled by returning `Except.error ()` from the selector.

* Spreading `{ ...a, ...b }` of objects with statically known fields is
  modelled by structure values; for the narrative objects, whose field
  sets are data-dependent, a tiny JS-object model (`Obj`, with
  last-write-wins field lookup) is used instead.

* The helper modules `../common/utilities` and `./helpers` imported by
  `src/selectors/index.js` are not part of the repository snapshot under
  `src/`; the definitions below that carry a `Modelled from the spec:`
  doc comment model those helpers from the specification text.
-/

namespace Timemap

/-- Time range held in `app.timeline.range`: the spec describes it as an
inclusive lower/upper instant bound pair. -/
structure TimeRange where
  lower : Int
  upper : Int
deriving DecidableEq, Repr

/-- An event record (an entry of `domain.events`).  `tags` and
`narratives` are `Option`-valued because a JS event may lack those fields
altogether (`undefined`), and the selectors read them with different
amounts of guarding.  `latitude`/`longitude` are optional coordinate
strings; JS truthiness (`!!event.latitude`) of a present coordinate string
is its non-emptiness.  `sources` holds the event's source-id references
consumed by the record-linking helper. -/
structure Event where
  id : Nat
  timestamp : Int
  date : String
  time : String
  category : String
  tags : Option (List String)
  narratives : Option (List String)
  location : String
  latitude : Option String
  longitude : Option String
  sources : List String
deriving DecidableEq, Repr

/-- A source record (a value of the `domain.sources` mapping): descriptive
fields only. -/
structure SourceRec where
  fields : List (String × String)
deriving DecidableEq, Repr

/-- A site record (`domain.sites` entry).  The JS gate keeps sites with
`!!(+s.enabled)`; the numeric coercion of the `enabled` field is modelled
by an integer, kept when non-zero. -/
structure Site where
  enabled : Int
  label : String
deriving DecidableEq, Repr

/-- A shape record (`domain.shapes` entry). -/
structure Shape where
  label : String
deriving DecidableEq, Repr

/-- A category record: the code uses only its `category` key. -/
structure Category where
  category : String
deriving DecidableEq, Repr

/-- First-match association-list lookup: the JS dictionary read
`dict[key]` (keys are unique in every dictionary built below). -/
def lookupA {κ α : Type} [DecidableEq κ] (l : List (κ × α)) (k : κ) : Option α :=
  match l with
  | [] => none
  | p :: rest => if p.1 = k then some p.2 else lookupA rest k

/-- An event expanded by the record-linking helper: the original event
together with the source records its references resolve to. -/
structure StepEvent where
  event : Event
  inlinedSources : List SourceRec
deriving DecidableEq, Repr

/-- Modelled from the spec: `insetSourceFrom` (from `../common/utilities`,
absent from `src/`), the curried record-linking helper — "given a mapping
of source records keyed by id, and a record referencing sources, produces
an expanded record with source details inlined", with unresolved source
references omitted (spec scenario 5). -/
def insetSourceFrom (sources : List (String × SourceRec)) (e : Event) : StepEvent :=
  ⟨e, e.sources.filterMap (lookupA sources)⟩

/-- A field value of a narrative JS object. -/
inductive Value where
  | str (s : String)
  | num (n : Int)
  | steps (l : List StepEvent)
deriving DecidableEq, Repr

/-- A JS object with data-dependent fields: an association list of field
writes, read with last-write-wins lookup (`getV`).  `Obj ++ Obj` is the
spread `{ ...a, ...b }`. -/
abbrev Obj := List (String × Value)

/-- Last-write-wins field read on `Obj`: JS property lookup after a
sequence of field writes. -/
def getV : Obj → String → Option Value
  | [], _ => none
  | p :: rest, f =>
    match getV rest f with
    | some w => some w
    | none => if p.1 = f then some p.2 else none

/-! ### The state tree and the input accessors -/

/-- The `domain` half of the state tree. -/
structure Domain where
  events : List Event
  categories : List Category
  narratives : List Obj
  sources : List (String × SourceRec)
  sites : List Site
  shapes : List Shape
  tags : List String
  notifications : List String

/-- `app.filters`. -/
structure Filters where
  tags : List String
  categories : List String

/-- `app.timeline.dimensions` (must contain a `contentHeight`). -/
structure Dimensions where
  contentHeight : Int
  width : Int
deriving DecidableEq, Repr

/-- `app.timeline`. -/
structure TimelineState where
  range : TimeRange
  dimensions : Dimensions

/-- `app.narrativeState`. -/
structure NarrativeState where
  current : Int

/-- The `app` half of the state tree. -/
structure App where
  narrative : Option Obj
  narrativeState : NarrativeState
  selected : List Event
  filters : Filters
  timeline : TimelineState

/-- The global state tree consumed by the input accessors. -/
structure StateTree where
  domain : Domain
  app : App

/-- The capability flags read from `process.env.features`, modelled as an
explicit configuration record. -/
structure Features where
  USE_SITES : Bool
  USE_SOURCES : Bool
  USE_SHAPES : Bool
  ASSOCIATIVE_EVENTS_BY_TAG : Bool

def getEvents (state : StateTree) : List Event := state.domain.events

def getCategories (state : StateTree) : List Category := state.domain.categories

def getNarratives (state : StateTree) : List Obj := state.domain.narratives

def getActiveNarrative (state : StateTree) : Option Obj := state.app.narrative

def getActiveStep (state : StateTree) : Int := state.app.narrativeState.current

def getSelected (state : StateTree) : List Event := state.app.selected

/-- `getSites`: gated by `USE_SITES`; when on, keeps the sites whose
`enabled` field is numerically truthy. -/
def getSites (features : Features) (state : StateTree) : List Site :=
  if features.USE_SITES then state.domain.sites.filter (fun s => s.enabled != 0) else []

/-- `getSources`: gated by `USE_SOURCES`; when off, the empty mapping. -/
def getSources (features : Features) (state : StateTree) : List (String × SourceRec) :=
  if features.USE_SOURCES then state.domain.sources else []

/-- `getShapes`: gated by `USE_SHAPES`; when off, the empty sequence. -/
def getShapes (features : Features) (state : StateTree) : List Shape :=
  if features.USE_SHAPES then state.domain.shapes else []

def getNotifications (state : StateTree) : List String := state.domain.notifications

def getTagTree (state : StateTree) : List String := state.domain.tags

def getActiveTags (state : StateTree) : List String := state.app.filters.tags

def getActiveCategories (state : StateTree) : List String := state.app.filters.categories

def getTimeRange (state : StateTree) : TimeRange := state.app.timeline.range

def getTimelineDimensions (state : StateTree) : Dimensions := state.app.timeline.dimensions

/-! ### `selectEvents` -/

/-- Modelled from the spec: the time-range predicate `isTimeRangedIn`
(from `./helpers`, absent from `src/`): "event timestamp lies within
`timeRange` inclusive bounds".  The main theorems about `selectEvents`
are stated for an arbitrary helper predicate `inRange`, and this concrete
model is used only to instantiate them in witnesses. -/
def isTimeRangedIn (e : Event) (r : TimeRange) : Bool :=
  decide (r.lower ≤ e.timestamp) && decide (e.timestamp ≤ r.upper)

/-- The filter body of `selectEvents`:
`isMatchingTag = (event.tags && event.tags.map(t => activeTags.includes(t)).some(s => s)) || activeTags.length === 0`,
`isActiveTag = isMatchingTag || activeTags.length === 0`,
`isActiveCategory = activeCategories.includes(event.category) || activeCategories.length === 0`,
`isActiveTime = isTimeRangedIn(event, timeRange)`,
retained when all three hold.  When `event.tags` is `undefined` the JS
`&&` short-circuits to a falsy value, modelled by `false`. -/
def passesFilters (inRange : Event → TimeRange → Bool)
    (activeTags activeCategories : List String) (timeRange : TimeRange)
    (event : Event) : Bool :=
  let isMatchingTag :=
    (match event.tags with
     | some tags => tags.any (fun tag => activeTags.contains tag)
     | none => false) || activeTags.length == 0
  let isActiveTag := isMatchingTag || activeTags.length == 0
  let isActiveCategory := activeCategories.contains event.category || activeCategories.length == 0
  let isActiveTime := inRange event timeRange
  isActiveTime && isActiveTag && isActiveCategory

/-- The JS keyed write `acc[event.id] = { ...event }`: overwrite the
entry at the key if present, otherwise add one.  (The output of
`selectEvents` is used by the other selectors only through key lookup
and through the collection of its values, so the position of the
entries in the association list is never observed.) -/
def setKey (acc : List (Nat × Event)) (k : Nat) (v : Event) : List (Nat × Event) :=
  match acc with
  | [] => [(k, v)]
  | p :: rest => if p.1 = k then (k, v) :: rest else p :: setKey rest k v

/-- `selectEvents`: of all available events, those that (1) fall in the
time range, (2) exist in an active tag, (3) exist in an active category,
accumulated into a collection keyed by `event.id`; each retained event is
a shallow copy (a structure value here). -/
def selectEvents (inRange : Event → TimeRange → Bool) (events : List Event)
    (activeTags activeCategories : List String) (timeRange : TimeRange) :
    List (Nat × Event) :=
  events.foldl (fun acc event =>
    if passesFilters inRange activeTags activeCategories timeRange event then
      setKey acc event.id event
    else acc) []

/-! ### `selectNarratives` -/

/-- Modelled from the spec: the comparison helper `compareTimestamp`
(from `../common/utilities`, absent from `src/`), a "deterministic
ordering function (by timestamp)" on narrative steps. -/
def compareTimestampLe (a b : StepEvent) : Prop :=
  a.event.timestamp ≤ b.event.timestamp

instance : DecidableRel compareTimestampLe :=
  fun a b => Int.decLe a.event.timestamp b.event.timestamp

instance : IsTotal StepEvent compareTimestampLe :=
  ⟨fun a b => Int.le_total a.event.timestamp b.event.timestamp⟩

instance : IsTrans StepEvent compareTimestampLe :=
  ⟨fun _ _ _ hab hbc => le_trans hab hbc⟩

/-- `steps.sort(compareTimestamp)`: the JS comparator sort is stable and
orders by the comparator, modelled by a stable insertion sort under the
`compareTimestampLe` total preorder. -/
def sortSteps (l : List StepEvent) : List StepEvent :=
  l.insertionSort compareTimestampLe

/-- Append a step to a narrative's step list in the narratives
dictionary, creating the `{id, steps: []}` skeleton first when the key is
absent (the `if (!narratives[narrative]) … push` sequence; the skeleton's
`id` field always equals the dictionary key, so only the step lists are
carried). -/
def pushStep (dict : List (String × List StepEvent)) (k : String) (s : StepEvent) :
    List (String × List StepEvent) :=
  match dict with
  | [] => [(k, [s])]
  | p :: rest => if p.1 = k then (p.1, p.2 ++ [s]) :: rest else p :: pushStep rest k s

/-- The event loop of `selectNarratives`: for each event, for each of its
narrative references, append the source-expanded event to that
narrative's steps.  Reading `evt.narratives.length` of an event without a
`narratives` field throws in JS, hence the `Except`. -/
def buildNarrGo (sources : List (String × SourceRec)) :
    List Event → List (String × List StepEvent) →
    Except Unit (List (String × List StepEvent))
  | [], dict => Except.ok dict
  | e :: rest, dict =>
    match e.narratives with
    | none => Except.error ()
    | some refs =>
      buildNarrGo sources rest
        (refs.foldl (fun d r => pushStep d r (insetSourceFrom sources e)) dict)

/-- The field name `id` (the JS string literal). -/
def fieldId : String := "id"

/-- The field name `steps` (the JS string literal). -/
def fieldSteps : String := "steps"

/-- The `id` field of a narrative-metadata object, when it is a string
(the only case in which `narrativesMeta.find(n => n.id === key)` and the
final `narratives[n.id]` lookup can produce anything). -/
def metaId (m : Obj) : Option String :=
  match getV m fieldId with
  | some (Value.str s) => some s
  | _ => none

/-- `narrativesMeta.find(n => n.id === key)`. -/
def metaFind (meta : List Obj) (k : String) : Option Obj :=
  meta.find? (fun m => decide (getV m fieldId = some (Value.str k)))

/-- The body of the keys loop of `selectNarratives` for one discovered
narrative `k` with collected steps `steps`: sort the steps by timestamp
(in place, so the assembled object `{id, steps}` holds the sorted list)
and, when a metadata entry with that id exists, merge it underneath
(`{ ...meta, ...narratives[key] }`: the later spread — the assembled
`id`/`steps` — wins on collisions). -/
def narrObj (meta : List Obj) (k : String) (steps : List StepEvent) : Obj :=
  let base : Obj := [(fieldId, Value.str k), (fieldSteps, Value.steps (sortSteps steps))]
  match metaFind meta k with
  | some m => m ++ base
  | none => base

/-- `selectNarratives`: populate the narratives dictionary from the
events, then for each discovered narrative sort its steps and merge the
matching metadata (`narrObj`); return
`narrativesMeta.map(n => narratives[n.id]).filter(d => d)`. -/
def selectNarratives (events : List Event) (meta : List Obj)
    (sources : List (String × SourceRec)) : Except Unit (List Obj) :=
  match buildNarrGo sources events [] with
  | Except.error e => Except.error e
  | Except.ok dict =>
    let dict2 : List (String × Obj) := dict.map (fun p => (p.1, narrObj meta p.1 p.2))
    Except.ok (meta.filterMap (fun m => (metaId m).bind (fun k => lookupA dict2 k)))

/-- `selectActiveNarrative`: the selected narrative with a `current`
field set to the step index, or null. -/
def selectActiveNarrative (narrative : Option Obj) (current : Int) : Option Obj :=
  narrative.map (fun o => o ++ [("current", Value.num current)])

/-! ### `selectLocations` -/

/-- A location group: label/coordinates from the first event seen at the
location, plus all events sharing it. -/
structure LocGroup where
  label : String
  events : List Event
  latitude : Option String
  longitude : Option String
deriving DecidableEq, Repr

/-- One step of the `selectLocations` loop: push the event onto its
location's group, creating the group (with the event's label and
coordinates) when the location key is new. -/
def upsertLoc (e : Event) : List (String × LocGroup) → List (String × LocGroup)
  | [] => [(e.location, ⟨e.location, [e], e.latitude, e.longitude⟩)]
  | p :: rest =>
    if p.1 = e.location then (p.1, { p.2 with events := p.2.events ++ [e] }) :: rest
    else p :: upsertLoc e rest

/-- `selectLocations`: group the filtered events by `location`;
`Object.values` of the dictionary, i.e. groups in order of first
appearance of each location. -/
def selectLocations (events : List Event) : List LocGroup :=
  (events.foldl (fun acc e => upsertLoc e acc) []).map Prod.snd

/-! ### `selectDatetimes` -/

/-- A project's running `{start, end}` interval (`stop` models the JS
field `end`, a Lean keyword). -/
structure Interval where
  start : Int
  stop : Int
deriving DecidableEq, Repr

/-- A datetime bucket before lane assignment: the events carry their
`project` annotation (`none` when the event has no first tag or when the
associative capability is off and the field was never written). -/
structure PreGroup where
  timestamp : Int
  date : String
  time : String
  events : List (Event × Option String)
deriving DecidableEq, Repr

/-- An event annotated with its project and its `projectOffset` lane
value. -/
structure OffsetEvent where
  event : Event
  project : Option String
  projectOffset : Int
deriving DecidableEq, Repr

/-- A datetime group of `selectDatetimes`' output. -/
structure DtGroup where
  timestamp : Int
  date : String
  time : String
  events : List OffsetEvent
deriving DecidableEq, Repr

/-- Widen a project's `[start, end]` interval to include a timestamp,
creating the `{start: ts, end: ts}` interval when the project is new
(`dateMin`/`dateMax` from `../common/utilities` are absent from `src/`
and are modelled from the spec as min/max-by-date reducers, i.e. min/max
on instants). -/
def updateProjects (projects : List (String × Interval)) (p : String) (ts : Int) :
    List (String × Interval) :=
  match projects with
  | [] => [(p, ⟨ts, ts⟩)]
  | q :: rest =>
    if q.1 = p then (q.1, ⟨min q.2.start ts, max q.2.stop ts⟩) :: rest
    else q :: updateProjects rest p ts

/-- Push an annotated event onto its exact-timestamp bucket, creating the
bucket (with the event's timestamp/date/time) when the key is new. -/
def pushDt (dts : List PreGroup) (e : Event) (pj : Option String) : List PreGroup :=
  match dts with
  | [] => [⟨e.timestamp, e.date, e.time, [(e, pj)]⟩]
  | g :: rest =>
    if g.timestamp = e.timestamp then { g with events := g.events ++ [(e, pj)] } :: rest
    else g :: pushDt rest e pj

/-- Phase 1 of `selectDatetimes`: group events by exact timestamp and,
when `ASSOCIATIVE_EVENTS_BY_TAG` is on, annotate each event with
`project` = its first tag and widen that project's interval.  With the
flag on, `event.tags.length` throws on an event without a `tags` field,
hence the `Except`. -/
def datetimesPhase1 (flag : Bool) :
    List Event → List (String × Interval) → List PreGroup →
    Except Unit (List (String × Interval) × List PreGroup)
  | [], pjs, dts => Except.ok (pjs, dts)
  | e :: rest, pjs, dts =>
    if flag then
      match e.tags with
      | none => Except.error ()
      | some tags =>
        let project : Option String :=
          match tags with
          | [] => none
          | t :: _ => some t
        let pjs' :=
          match project with
          | none => pjs
          | some p => updateProjects pjs p e.timestamp
        datetimesPhase1 flag rest pjs' (pushDt dts e project)
    else
      datetimesPhase1 flag rest pjs (pushDt dts e none)

/-- `checkActive(pj, dt)`: the timestamp falls within the project's
`[start, end]` inclusive interval (the JS function is only ever called
with keys of the `projects` dictionary; a missing key is modelled as
inactive). -/
def checkActive (projects : List (String × Interval)) (pj : String) (dt : Int) : Bool :=
  match lookupA projects pj with
  | some iv => decide (iv.start ≤ dt) && decide (dt ≤ iv.stop)
  | none => false

/-- First index of a string in a list, or `none`: the positive half of JS
`Array.indexOf`. -/
def idxOf' (s : String) : List String → Option Nat
  | [] => none
  | x :: xs => if x = s then some 0 else (idxOf' s xs).map (fun i => i + 1)

/-- `activeProjects.indexOf(ev.project)` as an integer: `-1` when the
project is absent from the list or when the event has no `project`
(`indexOf(undefined)`/`indexOf(null)` on a list of strings). -/
def idxOfOpt (p : Option String) (l : List String) : Int :=
  match p with
  | none => -1
  | some s =>
    match idxOf' s l with
    | some i => (i : Int)
    | none => -1

/-- The projects of `projects` active at instant `dt`, in the dictionary's
key order (first-discovery order): the JS `projKeys.forEach` push loop. -/
def activeProjectsAt (projects : List (String × Interval)) (dt : Int) : List String :=
  (projects.map Prod.fst).filter (fun k => checkActive projects k dt)

/-- `selectDatetimes`: phase 1 as above, then every event at timestamp
`dt` receives `projectOffset = activeProjects.indexOf(ev.project) * (2 *
sizes.eventDotR + 5)`.  `sizes.eventDotR` (from `../common/global`,
configuration outside this pipeline) is the parameter `R`.  The JS code
sorts the list of timestamp keys ascending and iterates over it to assign
the offsets, but each bucket is rewritten exactly once, so the iteration
order does not affect the resulting buckets; the returned collection is
`Object.values(datetimes)`, i.e. the buckets in key-insertion order
(timestamp keys are date strings, not array indices). -/
def selectDatetimes (flag : Bool) (R : Nat) (events : List Event) :
    Except Unit (List DtGroup) :=
  match datetimesPhase1 flag events [] [] with
  | Except.error e => Except.error e
  | Except.ok (projects, datetimes) =>
    let lane : Int := 2 * (R : Int) + 5
    Except.ok (datetimes.map (fun g =>
      let activeProjects := activeProjectsAt projects g.timestamp
      ⟨g.timestamp, g.date, g.time,
        g.events.map (fun q => ⟨q.1, q.2, idxOfOpt q.2 activeProjects * lane⟩)⟩))

/-! ### `selectSelected`, `selectCategoriesWithTimeline`, `selectDimensions` -/

/-- `selectSelected`: each selected event resolved with its sources,
preserving selection order (empty selection short-circuits to `[]`). -/
def selectSelected (selected : List Event) (sources : List (String × SourceRec)) :
    List StepEvent :=
  if selected.length = 0 then [] else selected.map (insetSourceFrom sources)

/-- `!!event.longitude && !!event.latitude`: both coordinates present and
truthy (a present empty string is falsy in JS). -/
def isLocatedEvent (e : Event) : Bool :=
  (match e.longitude with
   | some s => s != ""
   | none => false) &&
  (match e.latitude with
   | some s => s != ""
   | none => false)

/-- The scan loop of `selectCategoriesWithTimeline` over the (already
shuffled) events: `hl` is the set of keys of the `hasLocated` dictionary.
The loop breaks as soon as `Object.keys(hasLocated).length ===
categories.length`, skips categories already confirmed, and records the
category of every located event it visits. -/
def catScan (cats : List Category) (hl : List String) : List Event → List String
  | [] => hl
  | e :: rest =>
    if hl.length = cats.length then hl
    else if e.category ∈ hl then catScan cats hl rest
    else if isLocatedEvent e then catScan cats (hl ++ [e.category]) rest
    else catScan cats hl rest

/-- `selectCategoriesWithTimeline`: keep the categories for which the
scan confirmed a located event, in original category order.  The JS code
scans `shuffle(events)`; `shuffle` (from `./helpers`, absent from `src/`)
is modelled from the spec as "produce a randomized ordering of a
sequence", i.e. the `events` argument here is the shuffled ordering and
the theorems below quantify over permutations of it. -/
def selectCategoriesWithTimeline (cats : List Category) (events : List Event) :
    List Category :=
  if cats.length = 0 then cats
  else cats.filter (fun c => (catScan cats [] events).contains c.category)

/-- The output shape of `selectDimensions`. -/
structure DimensionsOut where
  contentHeight : Int
  width : Int
  trackHeight : Int
deriving DecidableEq, Repr

/-- `selectDimensions`: a copy of the dimensions with
`trackHeight = contentHeight - 50` (height of time labels). -/
def selectDimensions (dimensions : Dimensions) : DimensionsOut :=
  ⟨dimensions.contentHeight, dimensions.width, dimensions.contentHeight - 50⟩

/-! ### Generic association-list lemmas -/

lemma lookupA_mem {κ α : Type} [DecidableEq κ] {l : List (κ × α)} {k : κ} {v : α}
    (h : lookupA l k = some v) : (k, v) ∈ l := by
  induction l with
  | nil => simp [lookupA] at h
  | cons p rest ih =>
    by_cases hp : p.1 = k
    · simp only [lookupA, if_pos hp] at h
      injection h with h2
      subst h2
      subst hp
      exact Prod.mk.eta ▸ List.mem_cons_self p rest
    · simp only [lookupA, if_neg hp] at h
      exact List.mem_cons_of_mem _ (ih h)

lemma lookupA_isSome_iff {κ α : Type} [DecidableEq κ] (l : List (κ × α)) (k : κ) :
    (lookupA l k).isSome = true ↔ k ∈ l.map Prod.fst := by
  induction l with
  | nil => simp [lookupA]
  | cons p rest ih =>
    by_cases hp : p.1 = k
    · simp [lookupA, hp]
    · simp [lookupA, hp, ih, Ne.symm hp]

/-! ### Lemmas about `selectEvents` -/

lemma contains_iff_mem (l : List String) (a : String) : l.contains a = true ↔ a ∈ l := by
  simp [List.contains, List.elem_iff]

/-- The retention predicate of `selectEvents`, spelled out as the spec
states it: in time range, and (no tag filter or a tag matches), and (no
category filter or the category matches). -/
lemma passesFilters_iff (inRange : Event → TimeRange → Bool)
    (aT aC : List String) (tr : TimeRange) (e : Event) :
    passesFilters inRange aT aC tr e = true ↔
      (inRange e tr = true ∧
       (aT = [] ∨ ∃ t ∈ e.tags.getD [], t ∈ aT) ∧
       (aC = [] ∨ e.category ∈ aC)) := by
  cases htags : e.tags with
  | none =>
    simp only [passesFilters, htags, Option.getD_none, List.not_mem_nil, false_and,
      exists_false, or_false, Bool.and_eq_true, Bool.or_eq_true, beq_iff_eq,
      List.length_eq_zero, contains_iff_mem]
    tauto
  | some tags =>
    simp only [passesFilters, htags, Option.getD_some, Bool.and_eq_true,
      Bool.or_eq_true, beq_iff_eq, List.length_eq_zero, List.any_eq_true,
      contains_iff_mem, decide_eq_true_eq]
    aesop

lemma lookupA_setKey_self (acc : List (Nat × Event)) (k : Nat) (v : Event) :
    lookupA (setKey acc k v) k = some v := by
  induction acc with
  | nil => simp [setKey, lookupA]
  | cons p rest ih =>
    by_cases hp : p.1 = k
    · simp [setKey, hp, lookupA]
    · simp [setKey, hp, lookupA, ih]

lemma lookupA_setKey_ne (acc : List (Nat × Event)) (k k' : Nat) (v : Event)
    (h : k' ≠ k) : lookupA (setKey acc k' v) k = lookupA acc k := by
  induction acc with
  | nil => simp [setKey, lookupA, h]
  | cons p rest ih =>
    by_cases hp : p.1 = k'
    · simp [setKey, hp, lookupA, h]
    · simp [setKey, hp, lookupA, ih]

lemma mem_setKey (acc : List (Nat × Event)) (k : Nat) (v : Event) (p : Nat × Event)
    (h : p ∈ setKey acc k v) : p = (k, v) ∨ p ∈ acc := by
  induction acc with
  | nil => simpa [setKey] using h
  | cons q rest ih =>
    by_cases hq : q.1 = k
    · simp only [setKey, if_pos hq] at h
      rcases List.mem_cons.mp h with h | h
      · exact Or.inl h
      · exact Or.inr (List.mem_cons_of_mem _ h)
    · simp only [setKey, if_neg hq] at h
      rcases List.mem_cons.mp h with h | h
      · exact Or.inr (h ▸ List.mem_cons_self _ _)
      · rcases ih h with h | h
        · exact Or.inl h
        · exact Or.inr (List.mem_cons_of_mem _ h)

lemma keys_setKey (acc : List (Nat × Event)) (k : Nat) (v : Event) :
    (setKey acc k v).map Prod.fst =
      if k ∈ acc.map Prod.fst then acc.map Prod.fst else acc.map Prod.fst ++ [k] := by
  induction acc with
  | nil => simp [setKey]
  | cons p rest ih =>
    by_cases hp : p.1 = k
    · simp [setKey, hp]
    · simp only [setKey, if_neg hp, List.map_cons, ih]
      by_cases hk : k ∈ rest.map Prod.fst
      · simp [hk, Ne.symm hp]
      · simp [hk, Ne.symm hp]

lemma nodup_keys_setKey (acc : List (Nat × Event)) (k : Nat) (v : Event)
    (h : (acc.map Prod.fst).Nodup) : ((setKey acc k v).map Prod.fst).Nodup := by
  rw [keys_setKey]
  by_cases hk : k ∈ acc.map Prod.fst
  · simpa [hk] using h
  · simp only [if_neg hk]
    exact List.Nodup.append h (List.nodup_singleton k) (by simpa using hk)

lemma mem_keys_setKey (acc : List (Nat × Event)) (k : Nat) (v : Event) :
    k ∈ (setKey acc k v).map Prod.fst := by
  rw [keys_setKey]
  by_cases hk : k ∈ acc.map Prod.fst <;> simp [hk]

/-- The filter-and-key predicate against which `selectEvents` retains an
entry at key `k`. -/
def passesWithId (inRange : Event → TimeRange → Bool)
    (aT aC : List String) (tr : TimeRange) (k : Nat) (e : Event) : Bool :=
  passesFilters inRange aT aC tr e && decide (e.id = k)

lemma selectEvents_foldl_lookup (inRange : Event → TimeRange → Bool)
    (aT aC : List String) (tr : TimeRange) (k : Nat) :
    ∀ (l : List Event) (acc : List (Nat × Event)),
      lookupA (l.foldl (fun acc event =>
          if passesFilters inRange aT aC tr event then setKey acc event.id event
          else acc) acc) k =
        match l.reverse.find? (passesWithId inRange aT aC tr k) with
        | some e => some e
        | none => lookupA acc k
  | [], acc => by simp
  | e :: rest, acc => by
    rw [List.foldl_cons, selectEvents_foldl_lookup inRange aT aC tr k rest]
    rw [List.reverse_cons, List.find?_append]
    cases hfind : rest.reverse.find? (passesWithId inRange aT aC tr k) with
    | some x => simp [Option.or]
    | none =>
      simp only [Option.or]
      by_cases hq : passesWithId inRange aT aC tr k e = true
      · have hq' : passesFilters inRange aT aC tr e = true ∧ e.id = k := by
          simpa [passesWithId] using hq
        simp [List.find?, hq, hq'.1, hq'.2, lookupA_setKey_self]
      · simp only [List.find?, hq, Bool.false_eq_true, cond_false]
        by_cases hpass : passesFilters inRange aT aC tr e = true
        · have hid : e.id ≠ k := by
            intro hcontra
            exact hq (by simp [passesWithId, hpass, hcontra])
          rw [if_pos hpass, lookupA_setKey_ne acc k e.id e hid]
        · simp [hpass]

/-- The value found at key `k` in `selectEvents`' output is the last event
of the input (in input order) that passes the filters and has id `k`. -/
lemma selectEvents_lookup (inRange : Event → TimeRange → Bool)
    (events : List Event) (aT aC : List String) (tr : TimeRange) (k : Nat) :
    lookupA (selectEvents inRange events aT aC tr) k =
      (events.filter (passesWithId inRange aT aC tr k)).getLast? := by
  rw [selectEvents, selectEvents_foldl_lookup]
  rw [List.getLast?_eq_head?_reverse, ← List.filter_reverse, List.filter_head?]
  cases events.reverse.find? (passesWithId inRange aT aC tr k) <;> simp [lookupA]

lemma selectEvents_values_pass (inRange : Event → TimeRange → Bool)
    (aT aC : List String) (tr : TimeRange) :
    ∀ (l : List Event) (acc : List (Nat × Event)),
      (∀ p ∈ acc, passesFilters inRange aT aC tr p.2 = true) →
      ∀ p ∈ l.foldl (fun acc event =>
          if passesFilters inRange aT aC tr event then setKey acc event.id event
          else acc) acc, passesFilters inRange aT aC tr p.2 = true
  | [], acc, hacc => by simpa using hacc
  | e :: rest, acc, hacc => by
    rw [List.foldl_cons]
    apply selectEvents_values_pass inRange aT aC tr rest
    intro p hp
    by_cases hpass : passesFilters inRange aT aC tr e = true
    · rw [if_pos hpass] at hp
      rcases mem_setKey _ _ _ _ hp with h | h
      · rw [h]; exact hpass
      · exact hacc p h
    · rw [if_neg hpass] at hp
      exact hacc p hp

lemma selectEvents_keys_nodup (inRange : Event → TimeRange → Bool)
    (aT aC : List String) (tr : TimeRange) :
    ∀ (l : List Event) (acc : List (Nat × Event)),
      ((acc.map Prod.fst).Nodup) →
      ((l.foldl (fun acc event =>
          if passesFilters inRange aT aC tr event then setKey acc event.id event
          else acc) acc).map Prod.fst).Nodup
  | [], acc, hacc => by simpa using hacc
  | e :: rest, acc, hacc => by
    rw [List.foldl_cons]
    apply selectEvents_keys_nodup inRange aT aC tr rest
    by_cases hpass : passesFilters inRange aT aC tr e = true
    · rw [if_pos hpass]; exact nodup_keys_setKey acc e.id e hacc
    · rwa [if_neg hpass]

/-- With pairwise-distinct event ids, the filtered events with id `e.id`
form exactly the singleton `[e]` whenever `e` is a passing member. -/
lemma filter_withId_singleton (inRange : Event → TimeRange → Bool)
    (aT aC : List String) (tr : TimeRange) :
    ∀ (events : List Event), (events.map Event.id).Nodup →
      ∀ e ∈ events, passesFilters inRange aT aC tr e = true →
        events.filter (passesWithId inRange aT aC tr e.id) = [e]
  | [], _, e, he, _ => by simp at he
  | x :: rest, hnd, e, he, hpass => by
    rw [List.map_cons, List.nodup_cons] at hnd
    rcases List.mem_cons.mp he with rfl | hmem
    · have hx : passesWithId inRange aT aC tr e.id e = true := by
        simp [passesWithId, hpass]
      rw [List.filter_cons_of_pos hx]
      have : rest.filter (passesWithId inRange aT aC tr e.id) = [] := by
        rw [List.filter_eq_nil_iff]
        intro y hy hyq
        have hid : y.id = e.id := by
          have : passesFilters inRange aT aC tr y = true ∧ y.id = e.id := by
            simpa [passesWithId] using hyq
          exact this.2
        exact hnd.1 (hid ▸ List.mem_map_of_mem Event.id hy)
      rw [this]
    · have hxid : x.id ≠ e.id := by
        intro hcontra
        exact hnd.1 (hcontra ▸ List.mem_map_of_mem Event.id hmem)
      have hx : passesWithId inRange aT aC tr e.id x = false := by
        simp [passesWithId, hxid]
      rw [List.filter_cons_of_neg (by simp [hx])]
      exact filter_withId_singleton inRange aT aC tr rest hnd.2 e hmem hpass

/-! ### Concrete fixtures used by counterexamples and witnesses -/

/-- A wide time range for concrete inputs. -/
def trAll : TimeRange := ⟨-1000, 1000⟩

/-- The base event the concrete inputs below are variations of. -/
def evBase : Event :=
  { id := 0, timestamp := 0, date := "d", time := "t", category := "c1",
    tags := some [], narratives := some [], location := "L",
    latitude := some "1", longitude := some "1", sources := [] }

/-- First of two matching events sharing id 1. -/
def evDupA : Event := { evBase with id := 1, location := "X" }

/-- Second of two matching events sharing id 1. -/
def evDupB : Event := { evBase with id := 1, location := "Y" }

/-- A matching event with id 1. -/
def evW1 : Event := { evBase with id := 1 }

/-- A matching event with id 2. -/
def evW2 : Event := { evBase with id := 2 }

/-- An event without a `narratives` field. -/
def evNoNarr : Event := { evBase with narratives := none }

/-- An event without a `tags` field. -/
def evNoTags : Event := { evBase with tags := none }

/-- An event at timestamp 2, fed before `ev4b`. -/
def ev4a : Event := { evBase with id := 1, timestamp := 2 }

/-- An event at timestamp 1, fed after `ev4a`. -/
def ev4b : Event := { evBase with id := 2, timestamp := 1 }

/-! ### C1 — the `selectEvents` filter law -/

/-- C1, counterexample to the claim as stated: over the collection
`[evDupA, evDupB]` (two distinct events sharing id 1, both satisfying
every filter criterion, empty tag/category filters, wide time range), the
event `evDupA` satisfies all three criteria of the claim yet does not
appear in the output of `selectEvents` — the later event with the same id
overwrote it. -/
theorem selectEvents_filter_iff_counterexample :
    (isTimeRangedIn evDupA trAll = true ∧
     (([] : List String) = [] ∨ ∃ t ∈ evDupA.tags.getD [], t ∈ ([] : List String)) ∧
     (([] : List String) = [] ∨ evDupA.category ∈ ([] : List String))) ∧
    evDupA ∉ (selectEvents isTimeRangedIn [evDupA, evDupB] [] [] trAll).map Prod.snd :=
  ⟨⟨by decide, Or.inl rfl, Or.inl rfl⟩, by decide⟩

/-- C1 (amended: restricted to event collections whose ids are pairwise
distinct): an event of the collection appears in the output of
`selectEvents` iff its timestamp is in the time range per the time-range
helper, AND the active-tag set is empty or one of its tags is active, AND
the active-category set is empty or its category is active. -/
theorem selectEvents_filter_iff (inRange : Event → TimeRange → Bool)
    (events : List Event) (aT aC : List String) (tr : TimeRange)
    (hnd : (events.map Event.id).Nodup) (e : Event) (he : e ∈ events) :
    e ∈ (selectEvents inRange events aT aC tr).map Prod.snd ↔
      (inRange e tr = true ∧
       (aT = [] ∨ ∃ t ∈ e.tags.getD [], t ∈ aT) ∧
       (aC = [] ∨ e.category ∈ aC)) := by
  rw [← passesFilters_iff]
  constructor
  · intro hmem
    rcases List.mem_map.mp hmem with ⟨p, hp, hpe⟩
    rw [selectEvents] at hp
    have := selectEvents_values_pass inRange aT aC tr events [] (by simp) p hp
    rwa [hpe] at this
  · intro hpass
    have hlook : lookupA (selectEvents inRange events aT aC tr) e.id = some e := by
      rw [selectEvents_lookup,
        filter_withId_singleton inRange aT aC tr events hnd e he hpass]
      simp
    exact List.mem_map.mpr ⟨(e.id, e), lookupA_mem hlook, rfl⟩

/-- C1, witness: the amended theorem applied to the concrete two-event
collection `[evW1, evW2]` with distinct ids. -/
theorem selectEvents_filter_iff_witness :
    evW1 ∈ (selectEvents isTimeRangedIn [evW1, evW2] [] [] trAll).map Prod.snd :=
  (selectEvents_filter_iff isTimeRangedIn [evW1, evW2] [] [] trAll (by decide) evW1
    (by decide)).mpr ⟨by decide, Or.inl rfl, Or.inl rfl⟩

/-! ### C10 — duplicate ids in `selectEvents` -/

/-- C10: when at least two events satisfying all three filter criteria
share the id `k`, the output of `selectEvents` has exactly one entry under
`k`, and its value is (a shallow copy of) the last such event in input
order. -/
theorem selectEvents_duplicate_id_last_wins (inRange : Event → TimeRange → Bool)
    (events : List Event) (aT aC : List String) (tr : TimeRange) (k : Nat)
    (h2 : 2 ≤ (events.filter (passesWithId inRange aT aC tr k)).length) :
    (selectEvents inRange events aT aC tr).countP (fun p => p.1 == k) = 1 ∧
    lookupA (selectEvents inRange events aT aC tr) k =
      (events.filter (passesWithId inRange aT aC tr k)).getLast? := by
  have hlook := selectEvents_lookup inRange events aT aC tr k
  refine ⟨?_, hlook⟩
  have hne : events.filter (passesWithId inRange aT aC tr k) ≠ [] := by
    intro hcontra
    rw [hcontra] at h2
    simp at h2
  have hsome : (lookupA (selectEvents inRange events aT aC tr) k).isSome = true := by
    rw [hlook]
    exact List.getLast?_isSome.mpr hne
  have hmem := (lookupA_isSome_iff _ k).mp hsome
  have hnd : ((selectEvents inRange events aT aC tr).map Prod.fst).Nodup := by
    rw [selectEvents]
    exact selectEvents_keys_nodup inRange aT aC tr events [] (by simp)
  have hcount : ((selectEvents inRange events aT aC tr).map Prod.fst).count k = 1 :=
    List.count_eq_one_of_mem hnd hmem
  simpa [List.count, List.countP_map, Function.comp] using hcount

/-- C10, witness: the theorem applied to the two matching events sharing
id 1. -/
theorem selectEvents_duplicate_id_last_wins_witness :
    (selectEvents isTimeRangedIn [evDupA, evDupB] [] [] trAll).countP
        (fun p => p.1 == 1) = 1 ∧
    lookupA (selectEvents isTimeRangedIn [evDupA, evDupB] [] [] trAll) 1 =
      ([evDupA, evDupB].filter (passesWithId isTimeRangedIn [] [] trAll 1)).getLast? :=
  selectEvents_duplicate_id_last_wins isTimeRangedIn [evDupA, evDupB] [] [] trAll 1
    (by decide)

/-! ### C9 — capability gates return empty containers -/

/-- C9: for every state tree, a gated accessor whose capability flag is
off returns an empty container of the correct shape (a value, never a
null): `getSources` the empty mapping, `getSites` and `getShapes` the
empty sequence. -/
theorem accessors_flag_off_empty (features : Features) (state : StateTree) :
    (features.USE_SOURCES = false → getSources features state = []) ∧
    (features.USE_SITES = false → getSites features state = []) ∧
    (features.USE_SHAPES = false → getShapes features state = []) := by
  refine ⟨fun h => ?_, fun h => ?_, fun h => ?_⟩ <;>
    simp [getSources, getSites, getShapes, h]

/-- All capability flags off. -/
def featuresOff : Features := ⟨false, false, false, false⟩

/-- A concrete state tree. -/
def stateW : StateTree :=
  ⟨⟨[evBase], [⟨"c1"⟩], [], [], [⟨1, "s"⟩], [⟨"sh"⟩], [], []⟩,
   ⟨none, ⟨0⟩, [], ⟨[], []⟩, ⟨trAll, ⟨100, 100⟩⟩⟩⟩

/-- C9, witness: the theorem applied to a concrete non-empty state tree
with all flags off. -/
theorem accessors_flag_off_empty_witness :
    getSources featuresOff stateW = [] ∧ getSites featuresOff stateW = [] ∧
    getShapes featuresOff stateW = [] :=
  ⟨(accessors_flag_off_empty featuresOff stateW).1 rfl,
   (accessors_flag_off_empty featuresOff stateW).2.1 rfl,
   (accessors_flag_off_empty featuresOff stateW).2.2 rfl⟩

/-! ### C7 — behaviour on events missing optional fields -/

/-- C7, counterexample to the claim as stated: `selectNarratives` throws
(`evt.narratives.length` on `undefined`) on an event without a
`narratives` field, and `selectDatetimes` with the associative capability
on throws (`event.tags.length` on `undefined`) on an event without a
`tags` field. -/
theorem selectors_missing_fields_counterexample :
    selectNarratives [evNoNarr] [] [] = Except.error () ∧
    selectDatetimes true 0 [evNoTags] = Except.error () :=
  ⟨rfl, rfl⟩

lemma buildNarrGo_ok (sources : List (String × SourceRec)) :
    ∀ (l : List Event) (acc : List (String × List StepEvent)),
      (∀ e ∈ l, e.narratives ≠ none) →
      ∃ d, buildNarrGo sources l acc = Except.ok d
  | [], acc, _ => ⟨acc, rfl⟩
  | e :: rest, acc, h => by
    cases hn : e.narratives with
    | none => exact absurd hn (h e (List.mem_cons_self e rest))
    | some refs =>
      simpa [buildNarrGo, hn] using
        buildNarrGo_ok sources rest
          (refs.foldl (fun d r => pushStep d r (insetSourceFrom sources e)) acc)
          (fun x hx => h x (List.mem_cons_of_mem e hx))

lemma datetimesPhase1_ok_true :
    ∀ (l : List Event) (pjs : List (String × Interval)) (dts : List PreGroup),
      (∀ e ∈ l, e.tags ≠ none) →
      ∃ r, datetimesPhase1 true l pjs dts = Except.ok r
  | [], pjs, dts, _ => ⟨(pjs, dts), rfl⟩
  | e :: rest, pjs, dts, h => by
    cases ht : e.tags with
    | none => exact absurd ht (h e (List.mem_cons_self e rest))
    | some tags =>
      cases tags with
      | nil =>
        simpa [datetimesPhase1, ht] using
          datetimesPhase1_ok_true rest pjs (pushDt dts e none)
            (fun x hx => h x (List.mem_cons_of_mem e hx))
      | cons t ts =>
        simpa [datetimesPhase1, ht] using
          datetimesPhase1_ok_true rest (updateProjects pjs t e.timestamp)
            (pushDt dts e (some t))
            (fun x hx => h x (List.mem_cons_of_mem e hx))

lemma datetimesPhase1_ok_false :
    ∀ (l : List Event) (pjs : List (String × Interval)) (dts : List PreGroup),
      ∃ r, datetimesPhase1 false l pjs dts = Except.ok r
  | [], pjs, dts => ⟨(pjs, dts), rfl⟩
  | e :: rest, pjs, dts => by
    simpa [datetimesPhase1] using datetimesPhase1_ok_false rest pjs (pushDt dts e none)

/-- C7 (amended): `selectEvents` is total and treats an event without a
`tags` field as matching no tag (admitted only when the tag filter is
empty); `selectNarratives` returns a result whenever every event has its
`narratives` field; `selectDatetimes` with the associative capability on
returns a result whenever every event has its `tags` field, and with the
capability off it always returns a result.  (As the counterexample shows,
`selectNarratives` and flag-on `selectDatetimes` do throw when those
fields are absent.) -/
theorem selectors_total_on_present_fields :
    (∀ (inRange : Event → TimeRange → Bool) (aT aC : List String) (tr : TimeRange)
        (e : Event), e.tags = none →
        (passesFilters inRange aT aC tr e = true ↔
          (inRange e tr = true ∧ aT = [] ∧ (aC = [] ∨ e.category ∈ aC)))) ∧
    (∀ (events : List Event) (meta : List Obj) (sources : List (String × SourceRec)),
        (∀ e ∈ events, e.narratives ≠ none) →
        ∃ out, selectNarratives events meta sources = Except.ok out) ∧
    (∀ (R : Nat) (events : List Event), (∀ e ∈ events, e.tags ≠ none) →
        ∃ out, selectDatetimes true R events = Except.ok out) ∧
    (∀ (R : Nat) (events : List Event),
        ∃ out, selectDatetimes false R events = Except.ok out) := by
  refine ⟨?_, ?_, ?_, ?_⟩
  · intro inRange aT aC tr e htags
    rw [passesFilters_iff]
    simp [htags]
  · intro events meta sources h
    obtain ⟨d, hd⟩ := buildNarrGo_ok sources events [] h
    exact ⟨_, by rw [selectNarratives, hd]⟩
  · intro R events h
    obtain ⟨r, hr⟩ := datetimesPhase1_ok_true events [] [] h
    exact ⟨_, by rw [selectDatetimes, hr]⟩
  · intro R events
    obtain ⟨r, hr⟩ := datetimesPhase1_ok_false events [] []
    exact ⟨_, by rw [selectDatetimes, hr]⟩

/-- C7, witness: the amended theorem applied at concrete inputs whose
optional fields are present. -/
theorem selectors_total_on_present_fields_witness :
    (∃ out, selectNarratives [evW1] [] [] = Except.ok out) ∧
    (∃ out, selectDatetimes true 3 [evW1] = Except.ok out) ∧
    (∃ out, selectDatetimes false 3 [evNoTags] = Except.ok out) :=
  ⟨selectors_total_on_present_fields.2.1 [evW1] [] [] (by decide),
   selectors_total_on_present_fields.2.2.1 3 [evW1] (by decide),
   selectors_total_on_present_fields.2.2.2 3 [evNoTags]⟩

/-! ### C4 — output order of `selectDatetimes` -/

/-- C4: at the failing input `[ev4a, ev4b]` (matching events with
timestamps 2 then 1), `selectDatetimes` returns the datetime groups in
first-encounter order `[2, 1]`, which is not ascending: the JS code sorts
the timestamp keys but returns `Object.values(datetimes)` in key-insertion
order. -/
theorem selectDatetimes_unsorted_at_failing_input :
    (selectDatetimes false 0 [ev4a, ev4b]).map (fun gs => gs.map DtGroup.timestamp) =
      Except.ok [2, 1] ∧
    ¬ List.Pairwise (fun a b : Int => a ≤ b) [2, 1] :=
  ⟨rfl, by decide⟩

/-! ### C8 — `selectLocations` partitions the filtered events -/

lemma lookupA_eq_of_mem_nodup {κ α : Type} [DecidableEq κ] :
    ∀ (l : List (κ × α)) (k : κ) (v : α), (l.map Prod.fst).Nodup →
      (k, v) ∈ l → lookupA l k = some v
  | [], _, _, _, hm => by simp at hm
  | p :: rest, k, v, hnd, hm => by
    rw [List.map_cons, List.nodup_cons] at hnd
    rcases List.mem_cons.mp hm with rfl | hm
    · simp [lookupA]
    · have hk : p.1 ≠ k := by
        intro hcontra
        exact hnd.1 (hcontra ▸ List.mem_map_of_mem Prod.fst hm)
      simp only [lookupA, if_neg hk]
      exact lookupA_eq_of_mem_nodup rest k v hnd.2 hm

/-- Total number of events held by the groups of a location dictionary. -/
def sumLens (acc : List (String × LocGroup)) : Nat :=
  (acc.map (fun p => p.2.events.length)).sum

lemma sumLens_upsertLoc (e : Event) : ∀ acc, sumLens (upsertLoc e acc) = sumLens acc + 1
  | [] => by simp [upsertLoc, sumLens]
  | p :: rest => by
    by_cases hp : p.1 = e.location
    · simp only [upsertLoc, if_pos hp, sumLens, List.map_cons, List.sum_cons,
        List.length_append, List.length_singleton]
      omega
    · simp only [upsertLoc, if_neg hp, sumLens, List.map_cons, List.sum_cons]
      have := sumLens_upsertLoc e rest
      simp only [sumLens] at this
      omega

lemma foldl_upsert_sum : ∀ (l : List Event) (acc : List (String × LocGroup)),
    sumLens (l.foldl (fun acc e => upsertLoc e acc) acc) = sumLens acc + l.length
  | [], acc => by simp
  | e :: rest, acc => by
    rw [List.foldl_cons, foldl_upsert_sum rest, sumLens_upsertLoc]
    simp only [List.length_cons]
    omega

lemma lookupA_upsertLoc_self (e : Event) : ∀ acc,
    ∃ g, lookupA (upsertLoc e acc) e.location = some g ∧ e ∈ g.events
  | [] =>
    ⟨⟨e.location, [e], e.latitude, e.longitude⟩, by simp [upsertLoc, lookupA], by simp⟩
  | p :: rest => by
    by_cases hp : p.1 = e.location
    · refine ⟨{ p.2 with events := p.2.events ++ [e] }, ?_, by simp⟩
      simp only [upsertLoc, if_pos hp, lookupA]
    · obtain ⟨g, hg, hge⟩ := lookupA_upsertLoc_self e rest
      refine ⟨g, ?_, hge⟩
      simp only [upsertLoc, if_neg hp, lookupA]
      exact hg

lemma lookupA_upsertLoc_mono (x e : Event) (k : String) : ∀ (acc : List (String × LocGroup))
    (g : LocGroup), lookupA acc k = some g → e ∈ g.events →
    ∃ g', lookupA (upsertLoc x acc) k = some g' ∧ e ∈ g'.events
  | [], g, hl, _ => by simp [lookupA] at hl
  | p :: rest, g, hl, he => by
    by_cases hp : p.1 = k
    · rw [lookupA, if_pos hp] at hl
      injection hl with hl
      by_cases hx : p.1 = x.location
      · refine ⟨{ p.2 with events := p.2.events ++ [x] }, ?_, ?_⟩
        · simp only [upsertLoc, if_pos hx, lookupA]
          rw [if_pos hp]
        · rw [hl]
          exact List.mem_append_left _ he
      · refine ⟨g, ?_, he⟩
        simp only [upsertLoc, if_neg hx, lookupA]
        rw [if_pos hp, hl]
    · rw [lookupA, if_neg hp] at hl
      by_cases hx : p.1 = x.location
      · refine ⟨g, ?_, he⟩
        simp only [upsertLoc, if_pos hx, lookupA]
        rw [if_neg hp]
        exact hl
      · obtain ⟨g', hg', hge'⟩ := lookupA_upsertLoc_mono x e k rest g hl he
        refine ⟨g', ?_, hge'⟩
        simp only [upsertLoc, if_neg hx, lookupA]
        rw [if_neg hp]
        exact hg'

lemma foldl_upsert_mono (e : Event) (k : String) : ∀ (l : List Event)
    (acc : List (String × LocGroup)) (g : LocGroup),
    lookupA acc k = some g → e ∈ g.events →
    ∃ g', lookupA (l.foldl (fun acc x => upsertLoc x acc) acc) k = some g' ∧ e ∈ g'.events
  | [], acc, g, hl, he => ⟨g, hl, he⟩
  | x :: rest, acc, g, hl, he => by
    rw [List.foldl_cons]
    obtain ⟨g', hg', hge'⟩ := lookupA_upsertLoc_mono x e k acc g hl he
    exact foldl_upsert_mono e k rest (upsertLoc x acc) g' hg' hge'

lemma foldl_upsert_mem (e : Event) : ∀ (l : List Event) (acc : List (String × LocGroup)),
    e ∈ l →
    ∃ g, lookupA (l.foldl (fun acc x => upsertLoc x acc) acc) e.location = some g ∧
      e ∈ g.events
  | [], _, he => by simp at he
  | x :: rest, acc, he => by
    rw [List.foldl_cons]
    rcases List.mem_cons.mp he with rfl | hmem
    · obtain ⟨g, hg, hge⟩ := lookupA_upsertLoc_self e acc
      exact foldl_upsert_mono e e.location rest (upsertLoc e acc) g hg hge
    · exact foldl_upsert_mem e rest (upsertLoc x acc) hmem

/-- The invariant of the location dictionary: keys are distinct and every
group holds only events of its own location key. -/
def locInv (acc : List (String × LocGroup)) : Prop :=
  (acc.map Prod.fst).Nodup ∧ ∀ p ∈ acc, ∀ x ∈ p.2.events, x.location = p.1

lemma keys_upsertLoc (x : Event) : ∀ acc, (upsertLoc x acc).map Prod.fst =
    if x.location ∈ acc.map Prod.fst then acc.map Prod.fst
    else acc.map Prod.fst ++ [x.location]
  | [] => by simp [upsertLoc]
  | p :: rest => by
    by_cases hp : p.1 = x.location
    · simp [upsertLoc, hp]
    · simp only [upsertLoc, if_neg hp, List.map_cons, keys_upsertLoc x rest]
      by_cases hk : x.location ∈ rest.map Prod.fst
      · simp [hk, Ne.symm hp]
      · simp [hk, Ne.symm hp]

lemma consist_upsertLoc (x : Event) : ∀ acc,
    (∀ p ∈ acc, ∀ y ∈ p.2.events, y.location = p.1) →
    ∀ p ∈ upsertLoc x acc, ∀ y ∈ p.2.events, y.location = p.1
  | [], _ => by
    intro p hp y hy
    simp only [upsertLoc, List.mem_singleton] at hp
    subst hp
    simp only [List.mem_singleton] at hy
    subst hy
    rfl
  | q :: rest, hc => by
    intro p hp y hy
    by_cases hq : q.1 = x.location
    · simp only [upsertLoc, if_pos hq] at hp
      rcases List.mem_cons.mp hp with rfl | hp
      · rcases List.mem_append.mp hy with hy | hy
        · exact hc q (List.mem_cons_self q rest) y hy
        · simp only [List.mem_singleton] at hy
          subst hy
          exact hq.symm
      · exact hc p (List.mem_cons_of_mem q hp) y hy
    · simp only [upsertLoc, if_neg hq] at hp
      rcases List.mem_cons.mp hp with rfl | hp
      · exact hc p (List.mem_cons_self p rest) y hy
      · exact consist_upsertLoc x rest
          (fun r hr z hz => hc r (List.mem_cons_of_mem q hr) z hz) p hp y hy

lemma locInv_upsertLoc (x : Event) (acc : List (String × LocGroup)) (hinv : locInv acc) :
    locInv (upsertLoc x acc) := by
  constructor
  · rw [keys_upsertLoc]
    by_cases hk : x.location ∈ acc.map Prod.fst
    · simpa [hk] using hinv.1
    · simp only [if_neg hk]
      exact List.Nodup.append hinv.1 (List.nodup_singleton _) (by simpa using hk)
  · exact consist_upsertLoc x acc hinv.2

lemma locInv_foldl : ∀ (l : List Event) (acc : List (String × LocGroup)),
    locInv acc → locInv (l.foldl (fun acc x => upsertLoc x acc) acc)
  | [], _, hinv => hinv
  | x :: rest, acc, hinv => by
    rw [List.foldl_cons]
    exact locInv_foldl rest (upsertLoc x acc) (locInv_upsertLoc x acc hinv)

/-- C8: every filtered event appears in exactly one location group of
`selectLocations`' output, and the group sizes sum to the number of
filtered events. -/
theorem selectLocations_partition (events : List Event) :
    ((selectLocations events).map (fun g => g.events.length)).sum = events.length ∧
    ∀ e ∈ events, ∃ g, g ∈ selectLocations events ∧ e ∈ g.events ∧
      ∀ g', g' ∈ selectLocations events → e ∈ g'.events → g' = g := by
  constructor
  · have hsum := foldl_upsert_sum events []
    simp only [sumLens, List.map_nil, List.sum_nil, Nat.zero_add] at hsum
    simpa [selectLocations, List.map_map, sumLens, Function.comp] using hsum
  · intro e he
    obtain ⟨g, hg, hge⟩ := foldl_upsert_mem e events [] he
    have hinv := locInv_foldl events [] ⟨by simp, by simp⟩
    refine ⟨g, List.mem_map.mpr ⟨(e.location, g), lookupA_mem hg, rfl⟩, hge, ?_⟩
    intro g' hg' hge'
    rcases List.mem_map.mp hg' with ⟨q, hmem', hsnd⟩
    obtain ⟨k', gg⟩ := q
    simp only at hsnd
    subst hsnd
    have hk' : e.location = k' := hinv.2 (k', gg) hmem' e hge'
    have := lookupA_eq_of_mem_nodup _ k' gg hinv.1 hmem'
    rw [← hk', hg] at this
    injection this with this
    exact this.symm

/-- C8, witness: the theorem applied to the concrete two-event collection
`[evW1, evW2]` (both at location L). -/
theorem selectLocations_partition_witness :
    ((selectLocations [evW1, evW2]).map (fun g => g.events.length)).sum = 2 ∧
    ∃ g, g ∈ selectLocations [evW1, evW2] ∧ evW1 ∈ g.events ∧
      ∀ g', g' ∈ selectLocations [evW1, evW2] → evW1 ∈ g'.events → g' = g :=
  ⟨(selectLocations_partition [evW1, evW2]).1,
   (selectLocations_partition [evW1, evW2]).2 evW1 (by decide)⟩


/-! ### C2 — project-lane offsets in `selectDatetimes` -/

lemma idxOf'_isSome_of_mem (a : String) : ∀ (l : List String), a ∈ l →
    ∃ i, idxOf' a l = some i
  | [], h => by simp at h
  | x :: rest, h => by
    by_cases hx : x = a
    · exact ⟨0, by simp [idxOf', hx]⟩
    · rcases List.mem_cons.mp h with rfl | hmem
      · exact absurd rfl hx
      · obtain ⟨i, hi⟩ := idxOf'_isSome_of_mem a rest hmem
        exact ⟨i + 1, by simp [idxOf', hx, hi]⟩

lemma idxOf'_eq_none_of_not_mem (a : String) : ∀ (l : List String), a ∉ l →
    idxOf' a l = none
  | [], _ => rfl
  | x :: rest, h => by
    have hx : x ≠ a := fun hcontra => h (hcontra ▸ List.mem_cons_self x rest)
    have hmem : a ∉ rest := fun hcontra => h (List.mem_cons_of_mem x hcontra)
    simp [idxOf', hx, idxOf'_eq_none_of_not_mem a rest hmem]

/-- In a duplicate-free list, the positions in the filtered list respect
the positions in the original list: if `a` occurs before `b` and both
satisfy the filter, then `a`'s index in the filtered list is smaller than
`b`'s. -/
lemma idxOf'_filter_lt (p : String → Bool) :
    ∀ (l : List String), l.Nodup →
      ∀ (i j : Nat) (a b : String), i < j → l[i]? = some a → l[j]? = some b →
        p a = true → p b = true →
        ∃ ia ib, idxOf' a (l.filter p) = some ia ∧ idxOf' b (l.filter p) = some ib ∧
          ia < ib
  | [], _, i, j, a, b, hij, ha, hb, hpa, hpb => by simp at ha
  | x :: rest, hnd, i, j, a, b, hij, ha, hb, hpa, hpb => by
    rw [List.nodup_cons] at hnd
    obtain ⟨j0, rfl⟩ : ∃ j0, j = j0 + 1 := ⟨j - 1, by omega⟩
    rw [List.getElem?_cons_succ] at hb
    have hbmem : b ∈ rest := List.getElem?_mem hb
    cases i with
    | zero =>
      rw [List.getElem?_cons_zero] at ha
      injection ha with ha
      subst ha
      have hab : x ≠ b := fun hcontra => hnd.1 (hcontra ▸ hbmem)
      have hfb : b ∈ rest.filter p := List.mem_filter.mpr ⟨hbmem, hpb⟩
      obtain ⟨ib0, hib0⟩ := idxOf'_isSome_of_mem b (rest.filter p) hfb
      refine ⟨0, ib0 + 1, ?_, ?_, by omega⟩
      · rw [List.filter_cons_of_pos hpa]
        simp [idxOf']
      · rw [List.filter_cons_of_pos hpa]
        simp [idxOf', hab, hib0]
    | succ i0 =>
      rw [List.getElem?_cons_succ] at ha
      have hamem : a ∈ rest := List.getElem?_mem ha
      obtain ⟨ia0, ib0, hia0, hib0, hlt⟩ :=
        idxOf'_filter_lt p rest hnd.2 i0 j0 a b (by omega) ha hb hpa hpb
      by_cases hpx : p x = true
      · have hxa : x ≠ a := fun hcontra => hnd.1 (hcontra ▸ hamem)
        have hxb : x ≠ b := fun hcontra => hnd.1 (hcontra ▸ hbmem)
        refine ⟨ia0 + 1, ib0 + 1, ?_, ?_, by omega⟩
        · rw [List.filter_cons_of_pos hpx]
          simp [idxOf', hxa, hia0]
        · rw [List.filter_cons_of_pos hpx]
          simp [idxOf', hxb, hib0]
      · rw [List.filter_cons_of_neg (by simpa using hpx)]
        exact ⟨ia0, ib0, hia0, hib0, hlt⟩

lemma keys_updateProjects (p : String) (ts : Int) : ∀ (pjs : List (String × Interval)),
    (updateProjects pjs p ts).map Prod.fst =
      if p ∈ pjs.map Prod.fst then pjs.map Prod.fst else pjs.map Prod.fst ++ [p]
  | [] => by simp [updateProjects]
  | q :: rest => by
    by_cases hq : q.1 = p
    · simp [updateProjects, hq]
    · simp only [updateProjects, if_neg hq, List.map_cons, keys_updateProjects p ts rest]
      by_cases hk : p ∈ rest.map Prod.fst
      · simp [hk, Ne.symm hq]
      · simp [hk, Ne.symm hq]

lemma nodup_keys_updateProjects (p : String) (ts : Int) (pjs : List (String × Interval))
    (h : (pjs.map Prod.fst).Nodup) : ((updateProjects pjs p ts).map Prod.fst).Nodup := by
  rw [keys_updateProjects]
  by_cases hk : p ∈ pjs.map Prod.fst
  · simpa [hk] using h
  · simp only [if_neg hk]
    exact List.Nodup.append h (List.nodup_singleton _) (by simpa using hk)

lemma datetimesPhase1_keys_nodup :
    ∀ (l : List Event) (pjs : List (String × Interval)) (dts : List PreGroup)
      (r : List (String × Interval) × List PreGroup),
      datetimesPhase1 true l pjs dts = Except.ok r →
      (pjs.map Prod.fst).Nodup → (r.1.map Prod.fst).Nodup
  | [], pjs, dts, r, hr, hnd => by
    simp only [datetimesPhase1] at hr
    injection hr with hr
    subst hr
    exact hnd
  | e :: rest, pjs, dts, r, hr, hnd => by
    cases ht : e.tags with
    | none => simp [datetimesPhase1, ht] at hr
    | some tags =>
      cases tags with
      | nil =>
        simp only [datetimesPhase1, ht, if_true] at hr
        exact datetimesPhase1_keys_nodup rest pjs (pushDt dts e none) r hr hnd
      | cons t ts =>
        simp only [datetimesPhase1, ht, if_true] at hr
        exact datetimesPhase1_keys_nodup rest (updateProjects pjs t e.timestamp)
          (pushDt dts e (some t)) r hr
          (nodup_keys_updateProjects t e.timestamp pjs hnd)

lemma pushDt_none_projects (e : Event) : ∀ (dts : List PreGroup),
    (∀ g ∈ dts, ∀ q ∈ g.events, q.2 = (none : Option String)) →
    ∀ g ∈ pushDt dts e none, ∀ q ∈ g.events, q.2 = (none : Option String)
  | [], _ => by
    intro g hg q hq
    simp only [pushDt, List.mem_singleton] at hg
    subst hg
    simp only [List.mem_singleton] at hq
    subst hq
    rfl
  | d :: rest, hc => by
    intro g hg q hq
    by_cases hd : d.timestamp = e.timestamp
    · simp only [pushDt, if_pos hd] at hg
      rcases List.mem_cons.mp hg with rfl | hg
      · rcases List.mem_append.mp hq with hq | hq
        · exact hc d (List.mem_cons_self d rest) q hq
        · simp only [List.mem_singleton] at hq
          subst hq
          rfl
      · exact hc g (List.mem_cons_of_mem d hg) q hq
    · simp only [pushDt, if_neg hd] at hg
      rcases List.mem_cons.mp hg with rfl | hg
      · exact hc g (List.mem_cons_self g rest) q hq
      · exact pushDt_none_projects e rest
          (fun x hx z hz => hc x (List.mem_cons_of_mem d hx) z hz) g hg q hq

lemma datetimesPhase1_false_projects_none :
    ∀ (l : List Event) (pjs : List (String × Interval)) (dts : List PreGroup)
      (r : List (String × Interval) × List PreGroup),
      datetimesPhase1 false l pjs dts = Except.ok r →
      (∀ g ∈ dts, ∀ q ∈ g.events, q.2 = (none : Option String)) →
      ∀ g ∈ r.2, ∀ q ∈ g.events, q.2 = (none : Option String)
  | [], pjs, dts, r, hr, hc => by
    simp only [datetimesPhase1] at hr
    injection hr with hr
    subst hr
    exact hc
  | e :: rest, pjs, dts, r, hr, hc => by
    simp only [datetimesPhase1, Bool.false_eq_true, if_false] at hr
    exact datetimesPhase1_false_projects_none rest pjs (pushDt dts e none) r hr
      (pushDt_none_projects e dts hc)

/-- Every event of every output group of `selectDatetimes` carries
`projectOffset = activeProjects.indexOf(project) * (2R+5)`, with the
active list taken at the group's timestamp. -/
lemma selectDatetimes_offset_char (flag : Bool) (R : Nat) (events : List Event)
    (pjs : List (String × Interval)) (dts : List PreGroup) (out : List DtGroup)
    (h1 : datetimesPhase1 flag events [] [] = Except.ok (pjs, dts))
    (hout : selectDatetimes flag R events = Except.ok out) :
    ∀ g ∈ out, ∀ oe ∈ g.events,
      oe.projectOffset =
        idxOfOpt oe.project (activeProjectsAt pjs g.timestamp) * (2 * (R : Int) + 5) := by
  rw [selectDatetimes, h1] at hout
  simp only [Except.ok.injEq] at hout
  subst hout
  intro g hg oe hoe
  rcases List.mem_map.mp hg with ⟨pre, hpre, rfl⟩
  rcases List.mem_map.mp hoe with ⟨q, hq, rfl⟩
  rfl

lemma selectDatetimes_false_project_none (R : Nat) (events : List Event)
    (out : List DtGroup) (hout : selectDatetimes false R events = Except.ok out) :
    ∀ g ∈ out, ∀ oe ∈ g.events, oe.project = none := by
  obtain ⟨⟨pjs, dts⟩, hr⟩ := datetimesPhase1_ok_false events [] []
  have hnone := datetimesPhase1_false_projects_none events [] [] (pjs, dts) hr (by simp)
  rw [selectDatetimes, hr] at hout
  simp only [Except.ok.injEq] at hout
  subst hout
  intro g hg oe hoe
  rcases List.mem_map.mp hg with ⟨pre, hpre, rfl⟩
  rcases List.mem_map.mp hoe with ⟨q, hq, rfl⟩
  exact hnone pre hpre q hq

/-- `pA` was discovered before `pB` in the projects dictionary's key
list. -/
def discoveredBefore (keys : List String) (a b : String) : Prop :=
  ∃ i j : Nat, i < j ∧ keys[i]? = some a ∧ keys[j]? = some b

/-- Events of the three projects A, C, B, all at timestamp 0, discovered
in that order. -/
def evA : Event := { evBase with id := 1, tags := some ["A"] }

/-- The event of project C, discovered between A and B. -/
def evC : Event := { evBase with id := 2, tags := some ["C"] }

/-- The event of project B. -/
def evB : Event := { evBase with id := 3, tags := some ["B"] }

/-- C2, counterexample to the claim as stated: with three projects A, C,
B discovered in that order and all active at the shared timestamp 0
(events `[evA, evC, evB]`, `eventDotRadius` 10), the events of projects A
and B satisfy the claim's premises (A discovered before B, both active at
the timestamp), yet their offsets are 0 and 50: the spacing is
`2 × (2×R+5) = 50`, not exactly `2×R+5 = 25`, because project C sits
between them in the active list. -/
theorem selectDatetimes_spacing_counterexample :
    datetimesPhase1 true [evA, evC, evB] [] [] =
      Except.ok ([("A", (⟨0, 0⟩ : Interval)), ("C", ⟨0, 0⟩), ("B", ⟨0, 0⟩)],
        [⟨0, "d", "t", [(evA, some "A"), (evC, some "C"), (evB, some "B")]⟩]) ∧
    discoveredBefore ["A", "C", "B"] "A" "B" ∧
    checkActive [("A", ⟨0, 0⟩), ("C", ⟨0, 0⟩), ("B", ⟨0, 0⟩)] "A" 0 = true ∧
    checkActive [("A", ⟨0, 0⟩), ("C", ⟨0, 0⟩), ("B", ⟨0, 0⟩)] "B" 0 = true ∧
    selectDatetimes true 10 [evA, evC, evB] =
      Except.ok [⟨0, "d", "t",
        [⟨evA, some "A", 0⟩, ⟨evC, some "C", 25⟩, ⟨evB, some "B", 50⟩]⟩] ∧
    ¬ ((50 : Int) - 0 = 2 * 10 + 5) :=
  ⟨rfl, ⟨0, 2, by omega, by decide, by decide⟩, by decide, by decide, rfl, by decide⟩

/-- C2 (amended: the offsets of two events sharing a timestamp whose
projects are both active there, with A discovered before B, satisfy
strict inequality and differ by a positive integer multiple of
`2×eventDotRadius+5` — the multiple is 1 exactly when no other active
project was discovered between them; the sentinel part is unchanged):
(1) A-before-B active projects get strictly increasing offsets differing
by `k × (2×R+5)` with `k ≥ 1`; (2) with the associative capability on, an
event whose project is `null` or not active at its timestamp gets
`projectOffset = -1 × (2×R+5)`; (3) with the capability off, every event
gets `projectOffset = -(2×R+5)`. -/
theorem selectDatetimes_laneOffsets (R : Nat) (events : List Event) :
    (∀ (pjs : List (String × Interval)) (dts : List PreGroup) (out : List DtGroup),
      datetimesPhase1 true events [] [] = Except.ok (pjs, dts) →
      selectDatetimes true R events = Except.ok out →
      ∀ g ∈ out, ∀ eA ∈ g.events, ∀ eB ∈ g.events, ∀ pA pB : String,
        eA.project = some pA → eB.project = some pB →
        discoveredBefore (pjs.map Prod.fst) pA pB →
        checkActive pjs pA g.timestamp = true →
        checkActive pjs pB g.timestamp = true →
        eA.projectOffset < eB.projectOffset ∧
        ∃ k : Int, 1 ≤ k ∧
          eB.projectOffset - eA.projectOffset = k * (2 * (R : Int) + 5)) ∧
    (∀ (pjs : List (String × Interval)) (dts : List PreGroup) (out : List DtGroup),
      datetimesPhase1 true events [] [] = Except.ok (pjs, dts) →
      selectDatetimes true R events = Except.ok out →
      ∀ g ∈ out, ∀ oe ∈ g.events,
        (oe.project = none ∨
          ∃ p, oe.project = some p ∧ checkActive pjs p g.timestamp = false) →
        oe.projectOffset = -(2 * (R : Int) + 5)) ∧
    (∀ out : List DtGroup, selectDatetimes false R events = Except.ok out →
      ∀ g ∈ out, ∀ oe ∈ g.events, oe.projectOffset = -(2 * (R : Int) + 5)) := by
  refine ⟨?_, ?_, ?_⟩
  · intro pjs dts out h1 hout g hg eA hA eB hB pA pB hpA hpB hdisc hactA hactB
    have hchar := selectDatetimes_offset_char true R events pjs dts out h1 hout
    have hOffA := hchar g hg eA hA
    have hOffB := hchar g hg eB hB
    rw [hpA] at hOffA
    rw [hpB] at hOffB
    have hnd := datetimesPhase1_keys_nodup events [] [] (pjs, dts) h1 (by simp)
    obtain ⟨i, j, hij, hi, hj⟩ := hdisc
    obtain ⟨ia, ib, hia, hib, hlt⟩ := idxOf'_filter_lt
      (fun k => checkActive pjs k g.timestamp) (pjs.map Prod.fst) hnd i j pA pB hij hi hj
      hactA hactB
    rw [activeProjectsAt] at hOffA hOffB
    have hOffA' : eA.projectOffset = (ia : Int) * (2 * (R : Int) + 5) := by
      rw [hOffA]
      simp [idxOfOpt, hia]
    have hOffB' : eB.projectOffset = (ib : Int) * (2 * (R : Int) + 5) := by
      rw [hOffB]
      simp [idxOfOpt, hib]
    constructor
    · rw [hOffA', hOffB']
      have hlane : (0 : Int) < 2 * (R : Int) + 5 := by positivity
      exact mul_lt_mul_of_pos_right (by exact_mod_cast hlt) hlane
    · refine ⟨(ib : Int) - ia, by omega, ?_⟩
      rw [hOffA', hOffB']
      ring
  · intro pjs dts out h1 hout g hg oe hoe hcase
    have hchar := selectDatetimes_offset_char true R events pjs dts out h1 hout g hg oe hoe
    rcases hcase with hnone | ⟨p, hp, hact⟩
    · rw [hchar, hnone]
      simp only [idxOfOpt]
      ring
    · rw [hchar, hp]
      have hnm : p ∉ activeProjectsAt pjs g.timestamp := by
        intro hcontra
        rw [activeProjectsAt] at hcontra
        have := (List.mem_filter.mp hcontra).2
        rw [hact] at this
        exact absurd this (by decide)
      have hidx := idxOf'_eq_none_of_not_mem p _ hnm
      simp only [idxOfOpt, hidx]
      ring
  · intro out hout g hg oe hoe
    have hnone := selectDatetimes_false_project_none R events out hout g hg oe hoe
    obtain ⟨⟨pjs, dts⟩, hr⟩ := datetimesPhase1_ok_false events [] []
    have hchar := selectDatetimes_offset_char false R events pjs dts out hr hout g hg oe hoe
    rw [hchar, hnone]
    simp only [idxOfOpt]
    ring

/-- C2, witness: the amended theorem's first part applied to the
two-project input `[evA, evB]` with `eventDotRadius = 10` (offsets 0 and
25, spacing exactly 25 there), discharging every premise concretely. -/
theorem selectDatetimes_laneOffsets_witness :
    (⟨evA, some "A", 0⟩ : OffsetEvent).projectOffset <
      (⟨evB, some "B", 25⟩ : OffsetEvent).projectOffset ∧
    ∃ k : Int, 1 ≤ k ∧
      (⟨evB, some "B", 25⟩ : OffsetEvent).projectOffset -
        (⟨evA, some "A", 0⟩ : OffsetEvent).projectOffset = k * (2 * (10 : Int) + 5) :=
  (selectDatetimes_laneOffsets 10 [evA, evB]).1
    [("A", ⟨0, 0⟩), ("B", ⟨0, 0⟩)]
    [⟨0, "d", "t", [(evA, some "A"), (evB, some "B")]⟩]
    [⟨0, "d", "t", [⟨evA, some "A", 0⟩, ⟨evB, some "B", 25⟩]⟩]
    rfl rfl
    ⟨0, "d", "t", [⟨evA, some "A", 0⟩, ⟨evB, some "B", 25⟩]⟩ (by decide)
    ⟨evA, some "A", 0⟩ (by decide)
    ⟨evB, some "B", 25⟩ (by decide)
    "A" "B" rfl rfl
    ⟨0, 1, by omega, by decide, by decide⟩
    (by decide) (by decide)

/-! ### C5 — `selectCategoriesWithTimeline` and the shuffle -/

lemma bool_eq_of_iff {a b : Bool} (h : a = true ↔ b = true) : a = b := by
  cases a <;> cases b <;> simp_all

lemma any_perm_eq {α : Type} {l1 l2 : List α} (h : l1.Perm l2) (p : α → Bool) :
    l1.any p = l2.any p := by
  apply bool_eq_of_iff
  rw [List.any_eq_true, List.any_eq_true]
  exact ⟨fun ⟨x, hx, hpx⟩ => ⟨x, h.mem_iff.mp hx, hpx⟩,
         fun ⟨x, hx, hpx⟩ => ⟨x, h.mem_iff.mpr hx, hpx⟩⟩

/-- The located-event scan, characterised: a category key of the
collection is confirmed by the scan iff it was already confirmed or a
located event of that category occurs in the remaining list — provided
every scanned event's category is a key of the category collection.  (The
early break can only fire when every category key is already confirmed,
which the length/Nodup argument below shows.) -/
lemma catScan_mem_iff (cats : List Category) :
    ∀ (l : List Event) (hl : List String),
      hl.Nodup → (∀ k ∈ hl, k ∈ cats.map Category.category) →
      (∀ e ∈ l, e.category ∈ cats.map Category.category) →
      ∀ c ∈ cats,
        (c.category ∈ catScan cats hl l ↔
          c.category ∈ hl ∨
            l.any (fun e => isLocatedEvent e && e.category == c.category) = true)
  | [], hl, _, _, _, c, _ => by simp [catScan]
  | e :: rest, hl, hnd, hsub, hev, c, hc => by
    rw [catScan]
    by_cases hfull : hl.length = cats.length
    · rw [if_pos hfull]
      have hcat : c.category ∈ hl := by
        have h1 : hl.toFinset.card = hl.length := List.toFinset_card_of_nodup hnd
        have h2 : hl.toFinset ⊆ (cats.map Category.category).toFinset := by
          intro a ha
          exact List.mem_toFinset.mpr (hsub a (List.mem_toFinset.mp ha))
        have h3 : (cats.map Category.category).toFinset.card ≤ hl.toFinset.card := by
          calc (cats.map Category.category).toFinset.card
              ≤ (cats.map Category.category).length := List.toFinset_card_le _
            _ = cats.length := List.length_map _ _
            _ = hl.length := hfull.symm
            _ = hl.toFinset.card := h1.symm
        have h4 : hl.toFinset = (cats.map Category.category).toFinset :=
          Finset.eq_of_subset_of_card_le h2 h3
        have h5 : c.category ∈ (cats.map Category.category).toFinset :=
          List.mem_toFinset.mpr (List.mem_map_of_mem Category.category hc)
        exact List.mem_toFinset.mp (h4 ▸ h5)
      simp [hcat]
    · rw [if_neg hfull]
      have hev' : ∀ x ∈ rest, x.category ∈ cats.map Category.category :=
        fun x hx => hev x (List.mem_cons_of_mem e hx)
      by_cases hmem : e.category ∈ hl
      · rw [if_pos hmem]
        rw [catScan_mem_iff cats rest hl hnd hsub hev' c hc]
        constructor
        · rintro (h | h)
          · exact Or.inl h
          · rcases List.any_eq_true.mp h with ⟨x, hx, hpx⟩
            exact Or.inr (List.any_eq_true.mpr ⟨x, List.mem_cons_of_mem e hx, hpx⟩)
        · rintro (h | h)
          · exact Or.inl h
          · rcases List.any_eq_true.mp h with ⟨x, hx, hpx⟩
            rcases List.mem_cons.mp hx with rfl | hx
            · have hpx' : isLocatedEvent x = true ∧ x.category = c.category := by
                simpa using hpx
              exact Or.inl (hpx'.2 ▸ hmem)
            · exact Or.inr (List.any_eq_true.mpr ⟨x, hx, hpx⟩)
      · rw [if_neg hmem]
        by_cases hloc : isLocatedEvent e = true
        · rw [if_pos hloc]
          have hekey : e.category ∈ cats.map Category.category :=
            hev e (List.mem_cons_self e rest)
          have hnd' : (hl ++ [e.category]).Nodup :=
            List.Nodup.append hnd (List.nodup_singleton _) (by simpa using hmem)
          have hsub' : ∀ k ∈ hl ++ [e.category], k ∈ cats.map Category.category := by
            intro k hk
            rcases List.mem_append.mp hk with hk | hk
            · exact hsub k hk
            · simp only [List.mem_singleton] at hk
              subst hk
              exact hekey
          rw [catScan_mem_iff cats rest (hl ++ [e.category]) hnd' hsub' hev' c hc]
          constructor
          · rintro (h | h)
            · rcases List.mem_append.mp h with h | h
              · exact Or.inl h
              · simp only [List.mem_singleton] at h
                refine Or.inr (List.any_eq_true.mpr ⟨e, List.mem_cons_self e rest, ?_⟩)
                simp [hloc, h]
            · rcases List.any_eq_true.mp h with ⟨x, hx, hpx⟩
              exact Or.inr (List.any_eq_true.mpr ⟨x, List.mem_cons_of_mem e hx, hpx⟩)
          · rintro (h | h)
            · exact Or.inl (List.mem_append_left _ h)
            · rcases List.any_eq_true.mp h with ⟨x, hx, hpx⟩
              rcases List.mem_cons.mp hx with rfl | hx
              · have hpx' : isLocatedEvent x = true ∧ x.category = c.category := by
                  simpa using hpx
                exact Or.inl (List.mem_append_right _ (by simp [hpx'.2.symm]))
              · exact Or.inr (List.any_eq_true.mpr ⟨x, hx, hpx⟩)
        · rw [if_neg hloc]
          rw [catScan_mem_iff cats rest hl hnd hsub hev' c hc]
          constructor
          · rintro (h | h)
            · exact Or.inl h
            · rcases List.any_eq_true.mp h with ⟨x, hx, hpx⟩
              exact Or.inr (List.any_eq_true.mpr ⟨x, List.mem_cons_of_mem e hx, hpx⟩)
          · rintro (h | h)
            · exact Or.inl h
            · rcases List.any_eq_true.mp h with ⟨x, hx, hpx⟩
              rcases List.mem_cons.mp hx with rfl | hx
              · have hpx' : isLocatedEvent x = true ∧ x.category = c.category := by
                  simpa using hpx
                exact absurd hpx'.1 hloc
              · exact Or.inr (List.any_eq_true.mpr ⟨x, hx, hpx⟩)

/-- The category collection of the C5 inputs: just c1. -/
def catW : Category := ⟨"c1"⟩

/-- A located event of the stray category c2 (not in the collection). -/
def evC2loc : Event := { evBase with id := 1, category := "c2" }

/-- A located event of the listed category c1. -/
def evC1loc : Event := { evBase with id := 2 }

/-- C5, counterexample to the claim as stated: over the category
collection `[catW]` (just c1) and two located events of categories c2 and
c1, two permutations of the scan order give different outputs — with the
stray-category event first, the early break fires after one located
category is recorded and the output is empty, although a located event of
c1 exists.  The randomized scan order therefore affects the final set. -/
theorem selectCategories_shuffle_counterexample :
    [evC2loc, evC1loc].Perm [evC1loc, evC2loc] ∧
    selectCategoriesWithTimeline [catW] [evC2loc, evC1loc] = [] ∧
    selectCategoriesWithTimeline [catW] [evC1loc, evC2loc] = [catW] ∧
    (∃ e ∈ [evC2loc, evC1loc], isLocatedEvent e = true ∧ e.category = catW.category) :=
  ⟨List.Perm.swap evC1loc evC2loc [],
   by decide, by decide,
   ⟨evC1loc, by decide, ⟨by decide, rfl⟩⟩⟩

/-- C5 (amended: restricted to inputs in which every event's category is
a member of the category collection — with stray categories the early
break is order-dependent, as the counterexample shows): any two scan
orders produce the identical final filtered set, namely the categories
for which at least one event of that category has both coordinates
present, in original category order. -/
theorem selectCategoriesWithTimeline_perm_invariant (cats : List Category)
    (l1 l2 : List Event) (hperm : l1.Perm l2)
    (h1 : ∀ e ∈ l1, e.category ∈ cats.map Category.category) :
    selectCategoriesWithTimeline cats l1 = selectCategoriesWithTimeline cats l2 ∧
    selectCategoriesWithTimeline cats l1 =
      cats.filter (fun c =>
        l1.any (fun e => isLocatedEvent e && e.category == c.category)) := by
  have key : ∀ (l : List Event), (∀ e ∈ l, e.category ∈ cats.map Category.category) →
      selectCategoriesWithTimeline cats l =
        cats.filter (fun c =>
          l.any (fun e => isLocatedEvent e && e.category == c.category)) := by
    intro l hev
    by_cases hc : cats.length = 0
    · rw [List.length_eq_zero] at hc
      subst hc
      simp [selectCategoriesWithTimeline]
    · rw [selectCategoriesWithTimeline, if_neg hc]
      apply List.filter_congr
      intro c hcmem
      have hiff := catScan_mem_iff cats l [] List.nodup_nil (by simp) hev c hcmem
      simp only [List.not_mem_nil, false_or] at hiff
      apply bool_eq_of_iff
      rw [contains_iff_mem]
      exact hiff
  have h2 : ∀ e ∈ l2, e.category ∈ cats.map Category.category :=
    fun e he => h1 e (hperm.mem_iff.mpr he)
  have e1 := key l1 h1
  have e2 := key l2 h2
  refine ⟨?_, e1⟩
  rw [e1, e2]
  apply List.filter_congr
  intro c _
  exact any_perm_eq hperm _

/-- C5, witness: the amended theorem applied to a concrete two-event
collection (both events of the listed category c1) and its swap. -/
theorem selectCategoriesWithTimeline_perm_invariant_witness :
    selectCategoriesWithTimeline [catW] [evW1, evW2] =
      selectCategoriesWithTimeline [catW] [evW2, evW1] ∧
    selectCategoriesWithTimeline [catW] [evW1, evW2] =
      [catW].filter (fun c =>
        [evW1, evW2].any (fun e => isLocatedEvent e && e.category == c.category)) :=
  selectCategoriesWithTimeline_perm_invariant [catW] [evW1, evW2] [evW2, evW1]
    (List.Perm.swap evW2 evW1 []) (by decide)

/-! ### C3/C6 — `selectNarratives`: order, merge and step sorting -/

/-- The steps collected for narrative `k` by the event loop: one copy of
the source-expanded event per occurrence of `k` among the event's
narrative references, in event order. -/
def rawSteps (sources : List (String × SourceRec)) (events : List Event) (k : String) :
    List StepEvent :=
  events.flatMap (fun e =>
    List.replicate ((e.narratives.getD []).count k) (insetSourceFrom sources e))

/-- `k` was discovered by the event loop: some event references it. -/
def isAssembled (events : List Event) (k : String) : Bool :=
  events.any (fun e => (e.narratives.getD []).contains k)

lemma lookupA_pushStep_self (k : String) (s : StepEvent) :
    ∀ dict, lookupA (pushStep dict k s) k = some ((lookupA dict k).getD [] ++ [s])
  | [] => by simp [pushStep, lookupA]
  | p :: rest => by
    by_cases hp : p.1 = k
    · simp [pushStep, hp, lookupA]
    · simp [pushStep, hp, lookupA, lookupA_pushStep_self k s rest]

lemma lookupA_pushStep_ne (k k' : String) (s : StepEvent) (h : k' ≠ k) :
    ∀ dict, lookupA (pushStep dict k' s) k = lookupA dict k
  | [] => by simp [pushStep, lookupA, h]
  | p :: rest => by
    by_cases hp : p.1 = k'
    · simp [pushStep, hp, lookupA, h]
    · simp [pushStep, hp, lookupA, lookupA_pushStep_ne k k' s h rest]

lemma lookupA_foldl_pushStep (s : StepEvent) (k : String) :
    ∀ (refs : List String) (dict : List (String × List StepEvent)),
      lookupA (refs.foldl (fun d r => pushStep d r s) dict) k =
        match lookupA dict k with
        | some st => some (st ++ List.replicate (refs.count k) s)
        | none =>
          if k ∈ refs then some (List.replicate (refs.count k) s) else none
  | [], dict => by
    cases hl : lookupA dict k <;> simp [hl]
  | r :: refs, dict => by
    rw [List.foldl_cons, lookupA_foldl_pushStep s k refs]
    by_cases hr : r = k
    · subst hr
      rw [lookupA_pushStep_self]
      cases hl : lookupA dict r with
      | some st =>
        simp [hl, List.count_cons, List.replicate_succ, List.append_assoc]
      | none =>
        simp [hl, List.count_cons, List.replicate_succ]
    · rw [lookupA_pushStep_ne k r s hr]
      cases hl : lookupA dict k with
      | some st => simp [hl, List.count_cons, hr]
      | none => simp [hl, List.count_cons, hr, Ne.symm hr]

lemma buildNarrGo_lookup (sources : List (String × SourceRec)) (k : String) :
    ∀ (l : List Event) (acc : List (String × List StepEvent))
      (dict : List (String × List StepEvent)),
      buildNarrGo sources l acc = Except.ok dict →
      lookupA dict k =
        match lookupA acc k with
        | some st => some (st ++ rawSteps sources l k)
        | none =>
          if isAssembled l k = true then some (rawSteps sources l k) else none
  | [], acc, dict, h => by
    simp only [buildNarrGo, Except.ok.injEq] at h
    subst h
    simp only [rawSteps, isAssembled, List.flatMap_nil, List.any_nil,
      Bool.false_eq_true, if_false, List.append_nil]
    cases lookupA acc k <;> simp
  | e :: rest, acc, dict, h => by
    cases hn : e.narratives with
    | none => simp [buildNarrGo, hn] at h
    | some refs =>
      simp only [buildNarrGo, hn] at h
      have ih := buildNarrGo_lookup sources k rest _ dict h
      rw [lookupA_foldl_pushStep] at ih
      have hraw : rawSteps sources (e :: rest) k =
          List.replicate (refs.count k) (insetSourceFrom sources e) ++
            rawSteps sources rest k := by
        simp [rawSteps, hn]
      have hass : isAssembled (e :: rest) k = (refs.contains k || isAssembled rest k) := by
        simp [isAssembled, hn]
      cases hl : lookupA acc k with
      | some st =>
        simp only [hl] at ih ⊢
        rw [ih, hraw]
        simp [List.append_assoc]
      | none =>
        simp only [hl] at ih ⊢
        by_cases hmem : k ∈ refs
        · rw [if_pos hmem] at ih
          have hcont : refs.contains k = true := by
            simpa [contains_iff_mem] using hmem
          rw [ih, hraw, hass, hcont]
          simp
        · rw [if_neg hmem] at ih
          have hcnt : refs.count k = 0 := by
            rw [List.count_eq_zero]
            simpa using hmem
          have hcont : refs.contains k = false := by
            rw [← Bool.not_eq_true]
            simpa [contains_iff_mem] using hmem
          rw [ih, hass, hcont, hraw, hcnt]
          simp

lemma getV_append (a b : Obj) (f : String) :
    getV (a ++ b) f =
      match getV b f with
      | some w => some w
      | none => getV a f := by
  induction a with
  | nil =>
    cases hb : getV b f <;> simp [getV, hb]
  | cons p rest ih =>
    cases hb : getV b f with
    | some w => simp [getV, ih, hb]
    | none => simp [getV, ih, hb]

lemma fieldSteps_ne_fieldId : fieldSteps ≠ fieldId := by decide

lemma getV_base_id (k : String) (l : List StepEvent) :
    getV [(fieldId, Value.str k), (fieldSteps, Value.steps l)] fieldId =
      some (Value.str k) := by
  simp [getV, fieldSteps_ne_fieldId]

lemma getV_base_steps (k : String) (l : List StepEvent) :
    getV [(fieldId, Value.str k), (fieldSteps, Value.steps l)] fieldSteps =
      some (Value.steps l) := by
  simp [getV]

lemma getV_base_other (k : String) (l : List StepEvent) (f : String)
    (h1 : f ≠ fieldId) (h2 : f ≠ fieldSteps) :
    getV [(fieldId, Value.str k), (fieldSteps, Value.steps l)] f = none := by
  simp [getV, Ne.symm h1, Ne.symm h2]

lemma getV_narrObj_id (meta : List Obj) (k : String) (steps : List StepEvent) :
    getV (narrObj meta k steps) fieldId = some (Value.str k) := by
  simp only [narrObj]
  cases hf : metaFind meta k with
  | some m => simp [getV_append, getV_base_id]
  | none => simp [getV_base_id]

lemma getV_narrObj_steps (meta : List Obj) (k : String) (steps : List StepEvent) :
    getV (narrObj meta k steps) fieldSteps = some (Value.steps (sortSteps steps)) := by
  simp only [narrObj]
  cases hf : metaFind meta k with
  | some m => simp [getV_append, getV_base_steps]
  | none => simp [getV_base_steps]

lemma getV_narrObj_other (meta : List Obj) (k : String) (steps : List StepEvent)
    (f : String) (h1 : f ≠ fieldId) (h2 : f ≠ fieldSteps) (m : Obj)
    (hm : metaFind meta k = some m) :
    getV (narrObj meta k steps) f = getV m f := by
  simp only [narrObj, hm]
  simp [getV_append, getV_base_other k _ f h1 h2]

lemma metaId_eq_some (m : Obj) (k : String) (h : metaId m = some k) :
    getV m fieldId = some (Value.str k) := by
  unfold metaId at h
  cases hg : getV m fieldId with
  | none => simp [hg] at h
  | some v =>
    cases v with
    | str s =>
      simp only [hg, Option.some.injEq] at h
      rw [h]
    | num n => simp [hg] at h
    | steps l => simp [hg] at h

lemma lookupA_map_keyed {α β : Type} (F : String → α → β) :
    ∀ (l : List (String × α)) (k : String),
      lookupA (l.map (fun p => (p.1, F p.1 p.2))) k = (lookupA l k).map (F k)
  | [], k => rfl
  | p :: rest, k => by
    by_cases hp : p.1 = k
    · subst hp
      simp [lookupA]
    · simp [lookupA, hp, lookupA_map_keyed F rest k]

/-- Every object of `selectNarratives`' output is the sorted-and-merged
narrative of some discovered id with a matching metadata entry: its `id`
and `steps` fields are the pipeline-computed values, and every other field
reads through to the metadata object. -/
lemma selectNarratives_mem_spec (events : List Event) (meta : List Obj)
    (sources : List (String × SourceRec)) (out : List Obj)
    (hout : selectNarratives events meta sources = Except.ok out) :
    ∀ o ∈ out, ∃ k m,
      metaFind meta k = some m ∧
      getV o fieldId = some (Value.str k) ∧
      getV o fieldSteps = some (Value.steps (sortSteps (rawSteps sources events k))) ∧
      ∀ f, f ≠ fieldId → f ≠ fieldSteps → getV o f = getV m f := by
  cases hb : buildNarrGo sources events [] with
  | error e =>
    rw [selectNarratives] at hout
    simp only [hb] at hout
    exact absurd hout (by simp)
  | ok dict =>
    rw [selectNarratives] at hout
    simp only [hb, Except.ok.injEq] at hout
    subst hout
    intro o ho
    rcases List.mem_filterMap.mp ho with ⟨m0, hm0, hbind⟩
    rcases Option.bind_eq_some.mp hbind with ⟨k, hk, hlook⟩
    rw [lookupA_map_keyed (narrObj meta) dict k] at hlook
    rcases Option.map_eq_some'.mp hlook with ⟨st, hst, ho2⟩
    subst ho2
    have hbl := buildNarrGo_lookup sources k events [] dict hb
    simp only [lookupA] at hbl
    rw [hst] at hbl
    by_cases hass : isAssembled events k = true
    · rw [if_pos hass] at hbl
      injection hbl with hbl
      subst hbl
      have hid0 : getV m0 fieldId = some (Value.str k) := metaId_eq_some m0 k hk
      have hfind : (metaFind meta k).isSome = true := by
        rw [metaFind, List.find?_isSome]
        exact ⟨m0, hm0, by simp [hid0]⟩
      obtain ⟨m, hm⟩ := Option.isSome_iff_exists.mp hfind
      exact ⟨k, m, hm, getV_narrObj_id meta k _, getV_narrObj_steps meta k _,
        fun f h1 h2 => getV_narrObj_other meta k _ f h1 h2 m hm⟩
    · rw [if_neg hass] at hbl
      exact absurd hbl (by simp)

lemma filterMap_ids_aux (dict2 : List (String × Obj)) (pred : String → Bool)
    (hid : ∀ k o, lookupA dict2 k = some o → getV o fieldId = some (Value.str k))
    (hpred : ∀ k, (lookupA dict2 k).isSome = pred k) :
    ∀ ms : List Obj,
      (ms.filterMap (fun m => (metaId m).bind (fun k => lookupA dict2 k))).map
          (fun o => getV o fieldId) =
        ((ms.filterMap metaId).filter pred).map (fun k => some (Value.str k))
  | [] => rfl
  | m :: ms => by
    cases hmk : metaId m with
    | none =>
      simp only [List.filterMap_cons, hmk]
      exact filterMap_ids_aux dict2 pred hid hpred ms
    | some k =>
      cases hl : lookupA dict2 k with
      | some o =>
        have hp : pred k = true := by rw [← hpred]; simp [hl]
        simp only [List.filterMap_cons, hmk, Option.some_bind, hl, List.map_cons,
          List.filter_cons_of_pos hp, hid k o hl]
        rw [filterMap_ids_aux dict2 pred hid hpred ms]
      | none =>
        have hp : pred k = false := by rw [← hpred]; simp [hl]
        have hp' : ¬ pred k = true := by simp [hp]
        simp only [List.filterMap_cons, hmk, Option.some_bind, hl,
          List.filter_cons_of_neg hp']
        exact filterMap_ids_aux dict2 pred hid hpred ms

/-- C3: the output of `selectNarratives` (1) lists the assembled
narratives in metadata order — its `id` fields are exactly the metadata
ids that were assembled, in metadata order; (2) contains no narrative id
lacking a metadata entry; (3) merges metadata into each output narrative
with the pipeline-computed `id` and `steps` always winning, while every
other field reads through to the matching metadata entry (metadata wins
on all fields it can: the assembled object has only `id` and `steps`). -/
theorem selectNarratives_order_merge (events : List Event) (meta : List Obj)
    (sources : List (String × SourceRec)) (out : List Obj)
    (hout : selectNarratives events meta sources = Except.ok out) :
    (out.map (fun o => getV o fieldId) =
      ((meta.filterMap metaId).filter (fun k => isAssembled events k)).map
        (fun k => some (Value.str k))) ∧
    (∀ k, metaFind meta k = none → ∀ o ∈ out, getV o fieldId ≠ some (Value.str k)) ∧
    (∀ o ∈ out, ∃ k m,
      metaFind meta k = some m ∧
      getV o fieldId = some (Value.str k) ∧
      getV o fieldSteps = some (Value.steps (sortSteps (rawSteps sources events k))) ∧
      ∀ f, f ≠ fieldId → f ≠ fieldSteps → getV o f = getV m f) := by
  have hmem := selectNarratives_mem_spec events meta sources out hout
  refine ⟨?_, ?_, hmem⟩
  · cases hb : buildNarrGo sources events [] with
    | error e =>
      rw [selectNarratives] at hout
      simp only [hb] at hout
      exact absurd hout (by simp)
    | ok dict =>
      rw [selectNarratives] at hout
      simp only [hb, Except.ok.injEq] at hout
      subst hout
      have hkey : ∀ k, lookupA dict k =
          if isAssembled events k = true then some (rawSteps sources events k)
          else none := by
        intro k
        have hh := buildNarrGo_lookup sources k events [] dict hb
        simpa only [lookupA] using hh
      apply filterMap_ids_aux
      · intro k o hlo
        rw [lookupA_map_keyed (narrObj meta) dict k] at hlo
        rcases Option.map_eq_some'.mp hlo with ⟨st, hst, ho2⟩
        subst ho2
        exact getV_narrObj_id meta k st
      · intro k
        rw [lookupA_map_keyed (narrObj meta) dict k, hkey k]
        by_cases hass : isAssembled events k = true
        · simp [hass]
        · rw [if_neg hass]
          simp only [Option.map_none', Option.isSome_none]
          exact (Bool.eq_false_iff.mpr hass).symm
  · intro k hfind o ho hcontra
    obtain ⟨k', m, hm, hid, _, _⟩ := hmem o ho
    rw [hid] at hcontra
    injection hcontra with hcontra
    injection hcontra with hcontra
    subst hcontra
    rw [hm] at hfind
    exact absurd hfind (by simp)

/-- C6: every narrative assembled by `selectNarratives` has its steps
sorted ascending by timestamp: `steps[i].timestamp ≤ steps[i+1].timestamp`
for every valid index, regardless of the order of events in the input. -/
theorem selectNarratives_steps_sorted (events : List Event) (meta : List Obj)
    (sources : List (String × SourceRec)) (out : List Obj)
    (hout : selectNarratives events meta sources = Except.ok out) :
    ∀ o ∈ out, ∀ l : List StepEvent, getV o fieldSteps = some (Value.steps l) →
      ∀ i : Nat, ∀ h : i + 1 < l.length,
        (l.get ⟨i, Nat.lt_of_succ_lt h⟩).event.timestamp ≤
          (l.get ⟨i + 1, h⟩).event.timestamp := by
  intro o ho l hl i h
  obtain ⟨k, m, _, _, hsteps, _⟩ := selectNarratives_mem_spec events meta sources out hout o ho
  rw [hsteps] at hl
  injection hl with hl
  injection hl with hl
  subst hl
  have hsort : List.Sorted compareTimestampLe
      (sortSteps (rawSteps sources events k)) :=
    List.sorted_insertionSort compareTimestampLe _
  exact hsort.rel_get_of_lt (Fin.mk_lt_mk.mpr (Nat.lt_succ_self i))

/-- An event referencing narrative n1, at timestamp 5. -/
def evN1 : Event := { evBase with id := 1, timestamp := 5, narratives := some ["n1"] }

/-- An event referencing narratives n1 and n2, at timestamp 3. -/
def evN2 : Event := { evBase with id := 2, timestamp := 3, narratives := some ["n1", "n2"] }

/-- Metadata for narrative n1 with a title field. -/
def metaN1 : Obj := [(fieldId, Value.str "n1"), ("title", Value.str "T")]

/-- The expanded step of `evN1` (no sources). -/
def stepN1 : StepEvent := ⟨evN1, []⟩

/-- The expanded step of `evN2` (no sources). -/
def stepN2 : StepEvent := ⟨evN2, []⟩

/-- The assembled output narrative for n1 over `[evN1, evN2]`. -/
def outN1 : Obj :=
  metaN1 ++ [(fieldId, Value.str "n1"), (fieldSteps, Value.steps [stepN2, stepN1])]

/-- C3, witness: the theorem applied to the concrete two-event collection
and the single metadata entry for n1. -/
theorem selectNarratives_order_merge_witness :
    ∃ out, selectNarratives [evN1, evN2] [metaN1] [] = Except.ok out ∧
      out.map (fun o => getV o fieldId) =
        (([metaN1].filterMap metaId).filter
          (fun k => isAssembled [evN1, evN2] k)).map (fun k => some (Value.str k)) :=
  ⟨[outN1], rfl, (selectNarratives_order_merge [evN1, evN2] [metaN1] [] [outN1] rfl).1⟩

/-- C6, witness: the theorem applied to the concrete narrative n1, whose
sorted steps put the timestamp-3 event before the timestamp-5 event. -/
theorem selectNarratives_steps_sorted_witness :
    stepN2.event.timestamp ≤ stepN1.event.timestamp :=
  selectNarratives_steps_sorted [evN1, evN2] [metaN1] [] [outN1] rfl outN1
    (List.mem_singleton.mpr rfl) [stepN2, stepN1] (by decide) 0 (by decide)

end Timemap
